import Mathlib

/- Verification development for the meli_api_vanzak core subsystems:
the resilient request engine (src/meli_client.py), the credential
refresher (src/auth.py) and the flat-file upsert store
(src/csv_utils.py and src/report_utils.py).

Python scalar values, rows (dicts) and CSV files are shallowly embedded
as Lean data.  Effects are made explicit: the sequence of transport-level
results of the physical HTTP attempts, the stream of random jitter draws,
and filesystem operations are parameters or outputs, so every definition
is an executable function of its inputs. -/

/-! ## Request engine (src/meli_client.py) -/

/-- Transport-level result of one physical HTTP attempt: either a network
failure (a requests.RequestException raised by the transport itself) or a
response carrying a status code, an optional parsed Retry-After value and
a body. -/
inductive Resp
  | net
  | http (status : Nat) (retryAfter : Option ℚ) (body : String)

/-- Final outcome of one logical call through meli_request: a decoded body,
an HTTPError carrying the status, a propagated network error, or the marker
that the supplied attempt trace was too short to finish the call. -/
inductive Outcome
  | ok (body : String)
  | httpError (status : Nat)
  | netError
  | traceEnded
deriving DecidableEq

/-- Observable effects of one logical meli_request call: its outcome, how
many physical requests were issued, how many token refreshes happened, and
the sleeps performed (in seconds, in order). -/
structure RunResult where
  outcome : Outcome
  requests : Nat
  refreshes : Nat
  sleeps : List ℚ

/-- Fixed retryable status set, src/meli_client.py line 16. -/
def RETRY_STATUS : List Nat := [408, 409, 425, 429, 500, 502, 503, 504]

/-- Account one physical request plus one token refresh in front of a result. -/
def reqRefresh (r : RunResult) : RunResult :=
  ⟨r.outcome, r.requests + 1, r.refreshes + 1, r.sleeps⟩

/-- Account one physical request followed by one sleep of w seconds. -/
def reqSleep (w : ℚ) (r : RunResult) : RunResult :=
  ⟨r.outcome, r.requests + 1, r.refreshes, w :: r.sleeps⟩

/-- The while-loop of meli_request, src/meli_client.py lines 65-112.
The list holds the transport result of each successive physical attempt;
jitter n is the random.uniform(0.8, 1.2) draw made in loop iteration n
(the code draws at most once per iteration).  attempt and didRefresh are
the loop-carried counters of the source.  Key faithful details: a first
401 refreshes and continues without a budget check; a retryable status
with budget sleeps Retry-After (when present, times the jitter factor,
line 90) or exponential backoff; any other status in the 400-599 range
makes resp.raise_for_status() raise an HTTPError (requests raises only for
400 <= status < 600), which is a RequestException and is therefore caught
by the `except requests.RequestException` handler at line 104 and retried
with pure exponential backoff while budget remains; a status below 400 or
of 600 and above does not raise and the decoded body is returned. -/
def meliLoop (jitter : Nat → ℚ) (maxRetries : Nat) (backoffBase : ℚ) :
    List Resp → Nat → Bool → RunResult
  | [], _, _ => ⟨.traceEnded, 0, 0, []⟩
  | r :: rest, attempt, didRefresh =>
    match r with
    | .net =>
      if attempt + 1 ≤ maxRetries then
        reqSleep (backoffBase ^ attempt * jitter (attempt + 1))
          (meliLoop jitter maxRetries backoffBase rest (attempt + 1) didRefresh)
      else ⟨.netError, 1, 0, []⟩
    | .http s ra body =>
      if s = 401 ∧ didRefresh = false then
        reqRefresh (meliLoop jitter maxRetries backoffBase rest (attempt + 1) true)
      else if s ∈ RETRY_STATUS ∧ attempt + 1 ≤ maxRetries then
        reqSleep ((match ra with | some t => t | none => backoffBase ^ attempt) * jitter (attempt + 1))
          (meliLoop jitter maxRetries backoffBase rest (attempt + 1) didRefresh)
      else if 400 ≤ s ∧ s < 600 then
        if attempt + 1 ≤ maxRetries then
          reqSleep (backoffBase ^ attempt * jitter (attempt + 1))
            (meliLoop jitter maxRetries backoffBase rest (attempt + 1) didRefresh)
        else ⟨.httpError s, 1, 0, []⟩
      else ⟨.ok body, 1, 0, []⟩

/-- One logical call of meli_request: the loop started with attempt = 0 and
did_refresh = False (src/meli_client.py lines 50-51); the default budget in
the source is max_retries = 3 with backoff_base = 1.5. -/
def meliRequest (jitter : Nat → ℚ) (maxRetries : Nat) (backoffBase : ℚ)
    (resps : List Resp) : RunResult :=
  meliLoop jitter maxRetries backoffBase resps 0 false

/-! ## Credential refresher (src/auth.py) -/

/-- Stored token record (the tokens.json dict); Option models presence of a
key in the dict.  Only the fields that refresh_access_token touches are
carried. -/
structure Tok where
  access_token : Option String
  refresh_token : Option String
  user_id : Option String
  expires_in : Option Nat
  created_at : Option String
  expires_at : Option String
deriving DecidableEq

/-- Empty token dict, the `load_tokens() or {}` fallback. -/
def emptyTok : Tok :=
  ⟨Option.none, Option.none, Option.none, Option.none, Option.none, Option.none⟩

/-- Python truthiness of an optional string: None and the empty string are
falsy. -/
def truthyStr : Option String → Bool
  | Option.none => false
  | some s => s ≠ ""

/-- The refresh token refresh_access_token ends up using: the argument if
truthy, else the stored record's refresh_token (src/auth.py lines 111-113). -/
def effectiveRefreshTok (stored : Option Tok) (arg : Option String) : Option String :=
  if truthyStr arg then arg else (stored.getD emptyTok).refresh_token

/-- refresh_access_token (src/auth.py lines 107-141).  stored is the
load_tokens() result, arg the optional refresh_token argument, resp the
provider's reply to the POST (an error status of at least 400 makes
raise_for_status throw), now the current UTC timestamp string and mkExpiresAt
the (now + expires_in seconds) rendering.  Faithful details: a falsy
effective refresh token raises before any request; created_at is always set;
expires_at only when expires_in is nonzero; user_id is copied from the
stored record when the response omits it and the stored record has it;
nothing else (in particular not refresh_token) is copied from the stored
record; the resulting payload is persisted wholesale and returned. -/
def refreshAccessToken (stored : Option Tok) (arg : Option String)
    (resp : Except Nat Tok) (now : String) (mkExpiresAt : String → Nat → String) :
    Except String Tok :=
  let tokens := stored.getD emptyTok
  let rt := effectiveRefreshTok stored arg
  if truthyStr rt = false then
    .error "Nenhum refresh_token disponivel. Refaca o OAuth."
  else
    match resp with
    | .error status => .error (toString status)
    | .ok payload =>
      let p1 : Tok := { payload with created_at := some now }
      let ei := p1.expires_in.getD 0
      let p2 : Tok := if ei ≠ 0 then { p1 with expires_at := some (mkExpiresAt now ei) } else p1
      let p3 : Tok :=
        if p2.user_id = Option.none ∧ tokens.user_id ≠ Option.none then
          { p2 with user_id := tokens.user_id }
        else p2
      .ok p3

/-! ## Atomic-write mechanics (src/csv_utils.py lines 170-179 and
src/report_utils.py _write_atomic, lines 78-88) -/

/-- Split a character list at every occurrence of c (helper for path
handling). -/
def splitCh (c : Char) : List Char → List (List Char)
  | [] => [[]]
  | a :: as =>
    if a = c then [] :: splitCh c as
    else
      match splitCh c as with
      | [] => [[a]]
      | g :: gs => (a :: g) :: gs

/-- Join character-list path segments with slashes. -/
def joinSlash : List (List Char) → List Char
  | [] => []
  | [g] => g
  | g :: gs => g ++ '/' :: joinSlash gs

/-- os.path.basename for the forward-slash paths the jobs use. -/
def pyBasename (p : String) : String :=
  String.mk ((splitCh '/' p.data).getLastD [])

/-- os.path.dirname for the forward-slash relative/absolute paths the jobs
use (no trailing slash). -/
def pyDirname (p : String) : String :=
  let parts := splitCh '/' p.data
  if parts.length ≤ 1 then "" else String.mk (joinSlash parts.dropLast)

/-- Path produced by tempfile.mkstemp(prefix=..., suffix=...): the dir
argument is omitted in the source, so the file is created in the system
default temporary directory sysTmp; rand is the random component mkstemp
chooses. -/
def mkstempPath (sysTmp pfx rand sfx : String) : String :=
  sysTmp ++ "/" ++ pfx ++ rand ++ sfx

/-- Filesystem operations the write path performs. -/
inductive FsOp
  | createTemp (path : String)
  | writeFile (path content : String)
  | move (src dst : String)
deriving DecidableEq

/-- The temporary path used by one atomic-write call for target path:
mkstemp(prefix=os.path.basename(path) + "_", suffix=".tmp") with no dir
argument. -/
def atomicTmpPath (sysTmp rand path : String) : String :=
  mkstempPath sysTmp (pyBasename path ++ "_") rand ".tmp"

/-- Operation trace of the atomic-write step shared by upsert_csv (atomic
branch, csv_utils.py lines 171-179) and _write_atomic (report_utils.py
lines 78-88): create the temp file, write the full serialized content into
it, then shutil.move it over the target. -/
def atomicWriteOps (sysTmp rand path content : String) : List FsOp :=
  [FsOp.createTemp (atomicTmpPath sysTmp rand path),
   FsOp.writeFile (atomicTmpPath sysTmp rand path) content,
   FsOp.move (atomicTmpPath sysTmp rand path) path]

/-! ## Rows and CSV files (src/csv_utils.py, src/report_utils.py) -/

/-- Scalar cell values as they occur in the job rows: strings, integers and
Python None. -/
inductive Value
  | str (s : String)
  | int (n : Int)
  | null
deriving DecidableEq

/-- Python str() on a scalar: a string is unchanged, an integer is printed,
None prints as "None". -/
def pyStr : Value → String
  | .str s => s
  | .int n => toString n
  | .null => "None"

/-- A row is a Python dict from column names to scalars, kept in insertion
order.  The operations below implement dict get / item assignment / pop for
key-duplicate-free association lists, which is what every dict is. -/
abbrev Row := List (String × Value)

/-- dict.get: the value stored at key k, if present. -/
def rget : Row → String → Option Value
  | [], _ => Option.none
  | p :: rest, k => if p.1 = k then some p.2 else rget rest k

/-- dict item assignment r[k] = v: update in place if the key exists,
otherwise append, preserving insertion order. -/
def rset : Row → String → Value → Row
  | [], k, v => [(k, v)]
  | p :: rest, k, v => if p.1 = k then (k, v) :: rest else p :: rset rest k v

/-- dict.pop(k, None): remove the key if present. -/
def rpop (r : Row) (k : String) : Row :=
  r.filter (fun p => p.1 ≠ k)

/-- list(dict.keys()). -/
def rkeys (r : Row) : List String :=
  r.map Prod.fst

/-- Python dict merge `{**old, **r}` (report_utils.py line 158): start from
old and assign every item of r in order, so a key present in r wins even
when its value is empty or None, and keys absent from r keep old's value. -/
def dictUnion (old r : Row) : Row :=
  r.foldl (fun acc p => rset acc p.1 p.2) old

/-- The string the csv writer puts in column c for row r: the writers in
both modules emit row.get(c, "") and the csv module serializes None as ""
and any other scalar via str(). This is also exactly the per-field value of
_row_key (csv_utils.py lines 17-22): row.get(k, "") mapped to "" when None
and through str() otherwise. -/
def cellStr (r : Row) (c : String) : String :=
  match rget r c with
  | Option.none => ""
  | some .null => ""
  | some v => pyStr v

/-- _row_key (csv_utils.py lines 17-22): the composite key used by
upsert_csv, one cellStr per key field. -/
def rowKey (kf : List String) (r : Row) : List String :=
  kf.map (cellStr r)

/-- The composite key used by write_csv_upsert_flexible (report_utils.py
lines 150 and 155): str(r.get(k, "")), which renders a present None as
"None", unlike _row_key. -/
def flexKey (kf : List String) (r : Row) : List String :=
  kf.map (fun k => pyStr ((rget r k).getD (.str "")))

/-- An on-disk CSV dataset: a header line and the data records, each record
one serialized string per header column. -/
structure CsvFile where
  header : List String
  records : List (List String)
deriving DecidableEq

/-- csv.DictReader: each record becomes a dict pairing the header columns
with the record's strings (csv_utils.py lines 99-106, report_utils.py
_read_csv lines 70-76). -/
def readCsv (F : CsvFile) : List Row :=
  F.records.map (fun rec => (F.header.zip rec).map (fun p => (p.1, Value.str p.2)))

/-- csv.DictWriter.writerow of {c: row.get(c, "") for c in header}. -/
def writeRecord (header : List String) (r : Row) : List String :=
  header.map (cellStr r)

/-- The key-to-position index both upsert implementations keep. -/
abbrev Index := List (List String × Nat)

/-- dict lookup in the index; insertion conses at the front, so the first
match is the most recent binding, giving Python's overwrite semantics. -/
def ilookup : Index → List String → Option Nat
  | [], _ => Option.none
  | p :: rest, k => if p.1 = k then some p.2 else ilookup rest k

/-- Build the position index over the rows read from the file
(`idx[_row_key(row)] = i` per row in csv_utils.py line 106, and the
analogous loop in report_utils.py lines 149-151); a later duplicate key
overwrites an earlier one. -/
def buildIndexAux (key : Row → List String) : List Row → Nat → Index → Index
  | [], _, idx => idx
  | r :: rest, i, idx => buildIndexAux key rest (i + 1) ((key r, i) :: idx)

/-! ## upsert_csv (src/csv_utils.py lines 56-187) -/

/-- Per-matched-row update of upsert_csv (lines 145-159; the schema and the
no-new-columns branches run the identical loop): for every header column,
an incoming value that is neither "" nor None overwrites the stored one. -/
def updateRow (header : List String) (old r : Row) : Row :=
  header.foldl
    (fun acc c =>
      match rget r c with
      | some v => if v = .str "" ∨ v = .null then acc else rset acc c v
      | Option.none => acc)
    old

/-- New-row projection of upsert_csv (line 162):
{c: row.get(c, "") for c in header}. -/
def projRow (header : List String) (r : Row) : Row :=
  header.map (fun c => (c, (rget r c).getD (.str "")))

/-- The upsert loop of upsert_csv (lines 145-164) over the incoming rows:
a matched key updates the stored row in place, a new key appends the
projected row and indexes it at the end position. -/
def upsertMergeAux (header kf : List String) : List Row → List Row → Index → List Row
  | [], existing, _ => existing
  | r :: rest, existing, idx =>
    match ilookup idx (rowKey kf r) with
    | some pos =>
      upsertMergeAux header kf rest
        (existing.set pos (updateRow header (existing.getD pos []) r)) idx
    | Option.none =>
      upsertMergeAux header kf rest (existing ++ [projRow header r])
        ((rowKey kf r, existing.length) :: idx)

/-- Column union of upsert_csv's _union_cols (lines 127-132): append each
not-yet-seen column name in arrival order. -/
def unionCols (header cols : List String) : List String :=
  cols.foldl (fun h c => if h.contains c then h else h ++ [c]) header

/-- Target header of upsert_csv (lines 108-143): a truthy schema freezes the
header; otherwise the file's header is used, bootstrapped from the first
incoming row when the file was absent or empty, and allow_new_columns unions
in the incoming rows' new columns in arrival order. -/
def upsertCsvHeader (hdr0 : List String) (rows : List Row) (schema : List String)
    (allowNew : Bool) : List String :=
  if schema ≠ [] then schema
  else
    let base := if hdr0 = [] then (match rows with | [] => [] | r :: _ => rkeys r) else hdr0
    if allowNew then rows.foldl (fun h r => unionCols h (rkeys r)) base else base

/-- Stable sort used for Python's sorted()/list.sort(key=...): insertion
sort by a caller-supplied comparison. -/
def pySort (le : Row → Row → Bool) (l : List Row) : List Row :=
  List.insertionSort (fun a b => le a b = true) l

/-- The header read from the current file (empty when the file is absent or
empty). -/
def upsertHdr0 (file : Option CsvFile) : List String :=
  match file with | some F => F.header | Option.none => []

/-- The rows read from the current file. -/
def upsertExisting (file : Option CsvFile) : List Row :=
  match file with | some F => readCsv F | Option.none => []

/-- upsert_csv (csv_utils.py lines 56-187) as a function from the current
file state (Option.none = the file does not exist; a header-only model of an
empty file has header = []) to the new file state.  schema = [] and
sortLe = Option.none model the falsy defaults.  The lock and the tmp+rename
mechanics carry no data content (see atomicWriteOps for the write
mechanics); both write branches serialize the same records. -/
def upsertCsv (file : Option CsvFile) (rows : List Row) (kf : List String)
    (schema : List String) (allowNew : Bool) (sortLe : Option (Row → Row → Bool)) :
    Option CsvFile :=
  if schema = [] ∧ upsertHdr0 file = [] ∧ rows = [] then file
  else
    let header := upsertCsvHeader (upsertHdr0 file) rows schema allowNew
    let idx := buildIndexAux (rowKey kf) (upsertExisting file) 0 []
    let merged := upsertMergeAux header kf rows (upsertExisting file) idx
    let merged := match sortLe with | some le => pySort le merged | Option.none => merged
    some ⟨header, merged.map (writeRecord header)⟩

/-! ## write_csv_upsert_flexible (src/report_utils.py lines 117-173) -/

/-- Preferred header prefix, report_utils.py lines 45-52. -/
def PRIMARY_COL_ORDER : List String :=
  ["advertiser_id", "site_id", "date", "campaign_id", "campaign_name",
   "ad_id", "item_id", "item_title", "seller_sku", "status"]

/-- Code-point lexicographic comparison of character lists (what Python's
sorted does on strings). -/
def strDataLe : List Char → List Char → Bool
  | [], _ => true
  | _ :: _, [] => false
  | a :: as, b :: bs => if a = b then strDataLe as bs else decide (a < b)

/-- Code-point lexicographic order on strings. -/
def strLeB (a b : String) : Bool :=
  strDataLe a.data b.data

/-- sorted() over column names. -/
def sortStrings (l : List String) : List String :=
  List.insertionSort (fun a b => strLeB a b = true) l

/-- The column universe of _stable_header_from_rows (report_utils.py lines
99-103): the old header (only when not strict) plus every truthy key of
every row (the `if k` filter drops "" — and None — keys). -/
def headerKeys (existingHeader : List String) (rows : List Row) (strict : Bool) :
    List String :=
  ((if strict then [] else existingHeader) ++
    (rows.map (fun r => (rkeys r).filter (fun k => k ≠ ""))).flatten).dedup

/-- The preferred-column prefix of the header (report_utils.py line 105). -/
def headerPrimary (existingHeader : List String) (rows : List Row) (strict : Bool) :
    List String :=
  PRIMARY_COL_ORDER.filter (fun c => (headerKeys existingHeader rows strict).contains c)

/-- _stable_header_from_rows (report_utils.py lines 90-108): the preferred
columns first, in PRIMARY_COL_ORDER order, then the remaining columns of
the universe sorted lexicographically. -/
def stableHeaderFromRows (existingHeader : List String) (rows : List Row)
    (strict : Bool) : List String :=
  headerPrimary existingHeader rows strict ++
    sortStrings ((headerKeys existingHeader rows strict).filter
      (fun k => !(headerPrimary existingHeader rows strict).contains k))

/-- A slot of the merged list of write_csv_upsert_flexible: an existing or
freshly-created dict owned by the store (val), or a reference to the
caller's i-th input dict, aliased when a new-key row is appended
(report_utils.py line 161 appends the caller's object itself). -/
inductive Cell
  | val (r : Row)
  | ref (i : Nat)
deriving DecidableEq

/-- Dereference a slot against the caller's row list. -/
def derefC (heap : List Row) : Cell → Row
  | .val r => r
  | .ref i => heap.getD i []

/-- The merge loop of write_csv_upsert_flexible (lines 154-161): a matched
key replaces the slot with the fresh dict {**merged[pos], **r}; a new key
appends a reference to the caller's dict and indexes it.  i is the index of
r in the caller's list; the caller's dicts are not mutated during this
phase, so dereferencing uses the pristine heap. -/
def flexMergeAux (heap : List Row) (kf : List String) :
    List Row → Nat → List Cell → Index → List Cell
  | [], _, cells, _ => cells
  | r :: rest, i, cells, idx =>
    match ilookup idx (flexKey kf r) with
    | some pos =>
      flexMergeAux heap kf rest (i + 1)
        (cells.set pos (.val (dictUnion (derefC heap (cells.getD pos (.val []))) r))) idx
    | Option.none =>
      flexMergeAux heap kf rest (i + 1) (cells ++ [.ref i])
        ((flexKey kf r, cells.length) :: idx)

/-- The prior rows one write_csv_upsert_flexible call starts from: nothing
after a reset or when the file is absent, else the file's rows. -/
def flexExisting (file : Option CsvFile) (reset : Bool) : List Row :=
  match (if reset then Option.none else file) with
  | some F => readCsv F
  | Option.none => []

/-- The merged slot list of one write_csv_upsert_flexible call, before the
drop-fields phase. -/
def flexCells (file : Option CsvFile) (newRows : List Row) (kf : List String)
    (reset : Bool) : List Cell :=
  flexMergeAux newRows kf newRows 0 ((flexExisting file reset).map Cell.val)
    (buildIndexAux (flexKey kf) (flexExisting file reset) 0 [])

/-- r.pop(f, None) for every f in drop_fields (lines 163-167). -/
def dropRow (dropF : List String) (r : Row) : Row :=
  dropF.foldl rpop r

/-- Caller-visible effect of the drop-fields loop: the input dicts that were
appended into the merged list (exactly those referenced by a slot) have the
drop fields popped in place; the others are untouched. -/
def mutHeapAux (cells : List Cell) (dropF : List String) : List Row → Nat → List Row
  | [], _ => []
  | r :: rest, i =>
    (if cells.contains (.ref i) then dropRow dropF r else r) ::
      mutHeapAux cells dropF rest (i + 1)

/-- The drop-fields loop on a store-owned slot. -/
def dropCell (dropF : List String) : Cell → Cell
  | .val r => .val (dropRow dropF r)
  | .ref i => .ref i

/-- Sort key of _sort_rows (lines 110-115): the tuple
(str(r.get(k, "")) for k in sort_by). -/
def sortKeyOf (sortBy : List String) (r : Row) : List String :=
  sortBy.map (fun k => pyStr ((rget r k).getD (.str "")))

/-- Python tuple-of-strings comparison. -/
def lexLeTuple : List String → List String → Bool
  | [], _ => true
  | _ :: _, [] => false
  | a :: as, b :: bs => if a = b then lexLeTuple as bs else strLeB a b

/-- The header_old value of one call: the prior file's header unless the
file was reset or absent, in which case a truthy fallback_header seeds it
(lines 136-146). -/
def flexHeaderOld (file : Option CsvFile) (reset : Bool) (fallback : List String) :
    List String :=
  let f := if reset then Option.none else file
  let h := match f with | some F => F.header | Option.none => []
  if h = [] ∧ fallback ≠ [] then fallback else h

/-- Result of one write_csv_upsert_flexible call: the file written, the
final merged row values in file order, and the caller's input dicts after
the call (the side effect claim C10 is about). -/
structure FlexResult where
  file : CsvFile
  mergedRows : List Row
  heapAfter : List Row
deriving DecidableEq

/-- _sort_rows (report_utils.py lines 110-115): a falsy sort_by leaves the
order unchanged, otherwise a stable sort by the stringified key tuple. -/
def flexSortRows (sortBy : List String) (rows : List Row) : List Row :=
  match sortBy with
  | [] => rows
  | _ :: _ =>
    List.insertionSort
      (fun a b => lexLeTuple (sortKeyOf sortBy a) (sortKeyOf sortBy b) = true) rows

/-- write_csv_upsert_flexible (report_utils.py lines 117-173).
Empty lists model the falsy defaults of drop_fields, sort_by and
fallback_header.  Order of phases as in the source: optional reset, read,
fallback header, index, merge, drop fields (mutating the aliased caller
dicts), sort, header computation, write. -/
def writeCsvUpsertFlexible (file : Option CsvFile) (newRows : List Row)
    (kf : List String) (strictHeader : Bool) (dropF : List String)
    (sortBy : List String) (reset : Bool) (fallback : List String) : FlexResult :=
  let cells := flexCells file newRows kf reset
  let heapA := mutHeapAux cells dropF newRows 0
  let rows := flexSortRows sortBy ((cells.map (dropCell dropF)).map (derefC heapA))
  let header := stableHeaderFromRows (flexHeaderOld file reset fallback) rows strictHeader
  ⟨⟨header, rows.map (writeRecord header)⟩, rows, heapA⟩

/-- The stringified key tuples of the rows of a dataset file, the subject of
the uniqueness invariant. -/
def datasetKeys (F : CsvFile) (kf : List String) : List (List String) :=
  (readCsv F).map (rowKey kf)

/-- Whether upsert_csv's matched-row update keeps an incoming value:
`val not in ("", None)` on row.get(c, None). -/
def keepVal : Option Value → Bool
  | some v => decide (v ≠ .str "" ∧ v ≠ .null)
  | Option.none => false

/-- Composite key of a merged slot, as the flexible store computes it. -/
def cellKey (heap : List Row) (kf : List String) (c : Cell) : List String :=
  flexKey kf (derefC heap c)

/-- Invariant tying the flexible store's merged slots to its index: slot
keys are pairwise distinct, every index binding points at an in-range slot
carrying exactly that key, and every slot's key is bound in the index. -/
def FlexInv (heap : List Row) (kf : List String) (cells : List Cell) (idx : Index) : Prop :=
  (cells.map (cellKey heap kf)).Nodup ∧
  (∀ k pos, ilookup idx k = some pos →
    pos < cells.length ∧ cellKey heap kf (cells.getD pos (.val [])) = k) ∧
  (∀ pos, pos < cells.length →
    (ilookup idx (cellKey heap kf (cells.getD pos (.val [])))).isSome = true)

/-- Every merged slot's row reads back no None in any key field. -/
def StabCells (heap : List Row) (kf : List String) (cells : List Cell) : Prop :=
  ∀ c ∈ cells, ∀ k ∈ kf, rget (derefC heap c) k ≠ some Value.null

/-- Invariant tying upsert_csv's merged row list to its index. -/
def RowsInv (kf : List String) (l : List Row) (idx : Index) : Prop :=
  (l.map (rowKey kf)).Nodup ∧
  (∀ k pos, ilookup idx k = some pos →
    pos < l.length ∧ rowKey kf (l.getD pos []) = k) ∧
  (∀ pos, pos < l.length →
    (ilookup idx (rowKey kf (l.getD pos []))).isSome = true)

/-- Constant unit jitter stream (a legal random.uniform(0.8, 1.2) draw
sequence). -/
def jitterOne : Nat → ℚ := fun _ => 1

/-- Constant lower-edge jitter stream, every draw 0.8 (a legal
random.uniform(0.8, 1.2) draw sequence). -/
def jitterLow : Nat → ℚ := fun _ => 4/5



/-! ## Claims about the request engine (C2, C7, C9) -/

/-- Single-step unfolding of the loop on a retryable status with budget
left: sleep Retry-After (if present, otherwise exponential backoff) times
the jitter draw, then continue with the attempt counter advanced. -/
theorem meliLoop_retry_step (j : Nat → ℚ) (maxR : Nat) (base : ℚ) (s : Nat)
    (ra : Option ℚ) (b : String) (rest : List Resp) (att : Nat) (dr : Bool)
    (hs : s ∈ RETRY_STATUS) (hbud : att + 1 ≤ maxR) :
    meliLoop j maxR base (.http s ra b :: rest) att dr
      = reqSleep ((match ra with | some t => t | Option.none => base ^ att) * j (att + 1))
          (meliLoop j maxR base rest (att + 1) dr) := by
  have hs401 : ¬ (s = 401 ∧ dr = false) := by
    rintro ⟨h, -⟩
    subst h
    exact absurd hs (by decide)
  simp only [meliLoop]
  rw [if_neg hs401, if_pos ⟨hs, hbud⟩]

/-- Single-step unfolding on a status of at least 400 outside the retry set
(and not a first 401) with budget left: raise_for_status throws an
HTTPError, the RequestException handler catches it, sleeps pure exponential
backoff times the jitter draw and retries. -/
theorem meliLoop_caught_step (j : Nat → ℚ) (maxR : Nat) (base : ℚ) (s : Nat)
    (ra : Option ℚ) (b : String) (rest : List Resp) (att : Nat) (dr : Bool)
    (h4 : 400 ≤ s) (h6 : s < 600) (hs : s ∉ RETRY_STATUS)
    (h401 : ¬ (s = 401 ∧ dr = false)) (hbud : att + 1 ≤ maxR) :
    meliLoop j maxR base (.http s ra b :: rest) att dr
      = reqSleep (base ^ att * j (att + 1)) (meliLoop j maxR base rest (att + 1) dr) := by
  simp only [meliLoop]
  rw [if_neg h401, if_neg (fun h => hs h.1), if_pos ⟨h4, h6⟩, if_pos hbud]

/-- Single-step unfolding on a status of at least 400 outside the retry set
(and not a first 401) with the budget exhausted: the HTTPError carrying the
status propagates. -/
theorem meliLoop_raise_step (j : Nat → ℚ) (maxR : Nat) (base : ℚ) (s : Nat)
    (ra : Option ℚ) (b : String) (rest : List Resp) (att : Nat) (dr : Bool)
    (h4 : 400 ≤ s) (h6 : s < 600) (hs : s ∉ RETRY_STATUS)
    (h401 : ¬ (s = 401 ∧ dr = false)) (hbud : ¬ att + 1 ≤ maxR) :
    meliLoop j maxR base (.http s ra b :: rest) att dr = ⟨.httpError s, 1, 0, []⟩ := by
  simp only [meliLoop]
  rw [if_neg h401, if_neg (fun h => hs h.1), if_pos ⟨h4, h6⟩, if_neg hbud]

/-- Single-step unfolding on a status outside the 400-599 range:
raise_for_status does not throw and the body is returned — regardless of
remaining budget, of the response body and of whether the status is 2xx
(this covers both sub-400 statuses such as 304 and 600-plus statuses such
as 999). -/
theorem meliLoop_success_step (j : Nat → ℚ) (maxR : Nat) (base : ℚ) (s : Nat)
    (ra : Option ℚ) (b : String) (rest : List Resp) (att : Nat) (dr : Bool)
    (hout : ¬ (400 ≤ s ∧ s < 600)) :
    meliLoop j maxR base (.http s ra b :: rest) att dr = ⟨.ok b, 1, 0, []⟩ := by
  have hs : s ∉ RETRY_STATUS := by
    intro h
    simp only [RETRY_STATUS, List.mem_cons, List.not_mem_nil, or_false] at h
    omega
  have h401 : ¬ (s = 401 ∧ dr = false) := by
    rintro ⟨h, -⟩
    subst h
    exact hout ⟨by omega, by omega⟩
  simp only [meliLoop]
  rw [if_neg h401, if_neg (fun h => hs h.1), if_neg hout]

/-- Claim C2 counterexample: the claim says the 401 path consumes no
retry-budget slot and that a second 401 after the refresh fails immediately.
Concretely, with the default budget max_retries = 3: a 401 followed by a
second 401 and then a 200 succeeds after a backoff sleep (the second 401 is
an HTTPError caught by the RequestException handler and retried, not fatal),
and a 401 followed by three 429s and a 200 fails with HTTP 429 even though
the same 429 sequence without the leading 401 succeeds — the 401 attempt
advanced the attempt counter, eating one budget slot. -/
theorem c2_counterexample :
    (meliRequest jitterOne 3 (3/2)
      [.http 401 Option.none "", .http 401 Option.none "", .http 200 Option.none "done"]).outcome
        = .ok "done" ∧
    (meliRequest jitterOne 3 (3/2)
      [.http 401 Option.none "", .http 401 Option.none "", .http 200 Option.none "done"]).refreshes = 1 ∧
    (meliRequest jitterOne 3 (3/2)
      [.http 401 Option.none "", .http 429 Option.none "", .http 429 Option.none "",
       .http 429 Option.none "", .http 200 Option.none "done"]).outcome = .httpError 429 ∧
    (meliRequest jitterOne 3 (3/2)
      [.http 429 Option.none "", .http 429 Option.none "",
       .http 429 Option.none "", .http 200 Option.none "done"]).outcome = .ok "done" :=
  ⟨rfl, rfl, rfl, rfl⟩

/-- Claim C2 (amended): on the first 401 of a logical call the engine
performs exactly one refresh and retries immediately with no sleep, but the
retried request runs with the attempt counter already advanced, so the 401
occurrence consumes one retry-budget slot; a trace 401-then-200 yields the
body with two physical requests, one refresh and no sleep; and a second 401
after the refresh is not immediately fatal — raise_for_status's HTTPError is
caught by the RequestException handler, so it is retried with exponential
backoff while attempts remain and only fails with HTTP 401 once the budget
is exhausted. -/
theorem c2_amended (j : Nat → ℚ) (maxR : Nat) (base : ℚ) (ra : Option ℚ) (b : String)
    (rest : List Resp) :
    (∀ body rest2,
      meliLoop j maxR base (.http 401 ra b :: .http 200 Option.none body :: rest2) 0 false
        = ⟨.ok body, 2, 1, []⟩) ∧
    meliLoop j maxR base (.http 401 ra b :: rest) 0 false
        = reqRefresh (meliLoop j maxR base rest 1 true) ∧
    (∀ a, meliLoop j maxR base (.http 401 ra b :: rest) a true
        = if a + 1 ≤ maxR then
            reqSleep (base ^ a * j (a + 1)) (meliLoop j maxR base rest (a + 1) true)
          else ⟨.httpError 401, 1, 0, []⟩) :=
  ⟨fun _ _ => rfl, rfl, fun _ => rfl⟩

/-- Claim C7 counterexample: with Retry-After: 2 and every jitter draw at
the legal lower edge 0.8, the engine sleeps 2 * 0.8 = 1.6 seconds before the
successful retry — less than the 2 seconds the claim guarantees, because the
source multiplies the jitter factor onto the Retry-After value as well
(wait *= random.uniform(0.8, 1.2), meli_client.py line 90). -/
theorem c7_counterexample :
    (meliRequest jitterLow 3 (3/2)
      [.http 429 (some 2) "", .http 200 Option.none "done"]).sleeps = [2 * (4/5 : ℚ)] ∧
    ¬ ((2 : ℚ) ≤ 2 * (4/5)) ∧
    (meliRequest jitterLow 3 (3/2)
      [.http 429 (some 2) "", .http 200 Option.none "done"]).outcome = .ok "done" :=
  ⟨rfl, by norm_num, rfl⟩

/-- Claim C7 (amended): for every retryable status — any member of
RETRY_STATUS — at every attempt with budget left, and whether or not the
token was already refreshed, a response carrying Retry-After t makes the
engine sleep t times the current jitter draw before the next attempt; the
uniform(0.8, 1.2) factor applies to the Retry-After case as well as to
exponential backoff, so with any legal jitter stream that wait is at least
0.8 * t; a retryable response without Retry-After sleeps base ^ attempt
times the same jitter draw; and in the concrete scenario of a 429 carrying
Retry-After t whose retry succeeds, the call ends with exactly one more
request and that single sleep. -/
theorem c7_amended (j : Nat → ℚ) (hj : ∀ n, 4/5 ≤ j n ∧ j n ≤ 6/5) (t : ℚ) (ht : 0 ≤ t)
    (s : Nat) (hs : s ∈ RETRY_STATUS) (b body : String) (rest : List Resp)
    (att maxR : Nat) (base : ℚ) (dr : Bool) (hbud : att + 1 ≤ maxR) :
    (meliLoop j maxR base (.http s (some t) b :: rest) att dr
        = reqSleep (t * j (att + 1)) (meliLoop j maxR base rest (att + 1) dr)) ∧
    (4/5) * t ≤ t * j (att + 1) ∧
    (meliLoop j maxR base (.http s Option.none b :: rest) att dr
        = reqSleep (base ^ att * j (att + 1)) (meliLoop j maxR base rest (att + 1) dr)) ∧
    meliLoop j maxR base (.http 429 (some t) b :: .http 200 Option.none body :: rest) 0 false
      = ⟨.ok body, 2, 0, [t * j 1]⟩ := by
  refine ⟨meliLoop_retry_step j maxR base s (some t) b rest att dr hs hbud, ?_,
    meliLoop_retry_step j maxR base s Option.none b rest att dr hs hbud, ?_⟩
  · have h1 := (hj (att + 1)).1
    have := mul_le_mul_of_nonneg_right h1 ht
    calc (4/5 : ℚ) * t ≤ j (att + 1) * t := this
    _ = t * j (att + 1) := mul_comm _ _
  · rw [meliLoop_retry_step j maxR base 429 (some t) b _ 0 false (by decide) (by omega),
      meliLoop_success_step j maxR base 200 Option.none body rest 1 false (by omega)]
    rfl

/-- Witness for c7_amended at the unit jitter stream, status 429 with
Retry-After 2 at attempt 0, the default budget 3 and base 3/2. -/
theorem c7_amended_witness :
    (meliLoop jitterOne 3 (3/2) [.http 429 (some 2) ""] 0 false
        = reqSleep (2 * jitterOne 1) (meliLoop jitterOne 3 (3/2) [] 1 false)) ∧
    (4/5 : ℚ) * 2 ≤ 2 * jitterOne 1 ∧
    (meliLoop jitterOne 3 (3/2) [.http 429 Option.none ""] 0 false
        = reqSleep ((3/2 : ℚ) ^ 0 * jitterOne 1) (meliLoop jitterOne 3 (3/2) [] 1 false)) ∧
    meliLoop jitterOne 3 (3/2)
      [.http 429 (some 2) "", .http 200 Option.none "done"] 0 false
      = ⟨.ok "done", 2, 0, [2 * jitterOne 1]⟩ :=
  c7_amended jitterOne
    (fun _ => ⟨by norm_num [jitterOne], by norm_num [jitterOne]⟩)
    2 (by norm_num) 429 (by decide) "" "done" [] 0 3 (3/2) false (by decide)

/-- Claim C9 counterexample: a 404 (non-2xx, outside the fixed retry set)
does not fail immediately — the HTTPError from raise_for_status is a
RequestException, so the handler at meli_client.py line 104 sleeps and
retries it; here the second attempt returns 200 and the call succeeds after
two physical requests and one sleep.  A 304 (non-2xx, below 400) is not an
error at all: raise_for_status does not throw and the body is returned as
success — and the same holds for a status of 600 or more (e.g. 999), since
requests raises HTTPError only for statuses in the 400-599 range. -/
theorem c9_counterexample :
    (meliRequest jitterOne 3 (3/2)
      [.http 404 Option.none "nf", .http 200 Option.none "done"]).outcome = .ok "done" ∧
    (meliRequest jitterOne 3 (3/2)
      [.http 404 Option.none "nf", .http 200 Option.none "done"]).requests = 2 ∧
    (meliRequest jitterOne 3 (3/2)
      [.http 404 Option.none "nf", .http 200 Option.none "done"]).sleeps.length = 1 ∧
    (meliRequest jitterOne 3 (3/2)
      [.http 304 Option.none "cached"]).outcome = .ok "cached" ∧
    (meliRequest jitterOne 3 (3/2)
      [.http 999 Option.none "odd"]).outcome = .ok "odd" :=
  ⟨rfl, rfl, rfl, rfl, rfl⟩

/-- Claim C9 (amended): classification depends only on the status code and
the loop counters, never on the body.  A status in the fixed set
RETRY_STATUS with budget left sleeps (honoring Retry-After) and retries;
every other status in the 400-599 range (except a first 401) also retries —
with pure exponential backoff — while budget remains, because the HTTPError
raised by raise_for_status (requests raises only for 400 <= status < 600)
is caught by the RequestException handler, and only once the budget is
exhausted does the call fail with an HTTP error carrying the status code;
a status below 400 or of 600 and above returns the body as success; a
network-level failure consumes the same budget as a retryable status. -/
theorem c9_amended (j : Nat → ℚ) (maxR : Nat) (base : ℚ) (s : Nat) (ra : Option ℚ)
    (b : String) (rest : List Resp) (att : Nat) (dr : Bool) :
    (s ∈ RETRY_STATUS → att + 1 ≤ maxR →
      meliLoop j maxR base (.http s ra b :: rest) att dr
        = reqSleep ((match ra with | some t => t | Option.none => base ^ att) * j (att + 1))
            (meliLoop j maxR base rest (att + 1) dr)) ∧
    (400 ≤ s → s < 600 → s ∉ RETRY_STATUS → ¬ (s = 401 ∧ dr = false) → att + 1 ≤ maxR →
      meliLoop j maxR base (.http s ra b :: rest) att dr
        = reqSleep (base ^ att * j (att + 1)) (meliLoop j maxR base rest (att + 1) dr)) ∧
    (400 ≤ s → s < 600 → s ∉ RETRY_STATUS → ¬ (s = 401 ∧ dr = false) → ¬ att + 1 ≤ maxR →
      meliLoop j maxR base (.http s ra b :: rest) att dr = ⟨.httpError s, 1, 0, []⟩) ∧
    (¬ (400 ≤ s ∧ s < 600) →
      meliLoop j maxR base (.http s ra b :: rest) att dr = ⟨.ok b, 1, 0, []⟩) ∧
    (att + 1 ≤ maxR →
      meliLoop j maxR base (.net :: rest) att dr
        = reqSleep (base ^ att * j (att + 1)) (meliLoop j maxR base rest (att + 1) dr)) ∧
    (¬ att + 1 ≤ maxR →
      meliLoop j maxR base (.net :: rest) att dr = ⟨.netError, 1, 0, []⟩) := by
  refine ⟨meliLoop_retry_step j maxR base s ra b rest att dr,
    meliLoop_caught_step j maxR base s ra b rest att dr,
    meliLoop_raise_step j maxR base s ra b rest att dr,
    meliLoop_success_step j maxR base s ra b rest att dr, ?_, ?_⟩
  · intro hbud
    simp only [meliLoop]
    rw [if_pos hbud]
  · intro hbud
    simp only [meliLoop]
    rw [if_neg hbud]

/-- Witness for c9_amended: each branch exercised concretely — a 429 with
Retry-After 7 and budget left retries after sleeping 7; a 404 with budget
left retries after a backoff sleep; a 404 with budget exhausted raises
HTTP 404; a 304 and a 999 return their bodies as success (both lie outside
the 400-599 range requests raises for); a network failure with and without
budget. -/
theorem c9_amended_witness :
    meliLoop jitterOne 3 2 [.http 429 (some 7) "r"] 0 false
      = reqSleep (7 * jitterOne 1) (meliLoop jitterOne 3 2 [] 1 false) ∧
    meliLoop jitterOne 3 2 [.http 404 Option.none "nf"] 0 false
      = reqSleep (2 ^ 0 * jitterOne 1) (meliLoop jitterOne 3 2 [] 1 false) ∧
    meliLoop jitterOne 3 2 [.http 404 Option.none "nf"] 3 false
      = ⟨.httpError 404, 1, 0, []⟩ ∧
    meliLoop jitterOne 3 2 [.http 304 Option.none "cached"] 3 false
      = ⟨.ok "cached", 1, 0, []⟩ ∧
    meliLoop jitterOne 3 2 [.http 999 Option.none "odd"] 0 false
      = ⟨.ok "odd", 1, 0, []⟩ ∧
    meliLoop jitterOne 3 2 [.net] 0 false
      = reqSleep (2 ^ 0 * jitterOne 1) (meliLoop jitterOne 3 2 [] 1 false) ∧
    meliLoop jitterOne 3 2 [.net] 3 false = ⟨.netError, 1, 0, []⟩ :=
  ⟨(c9_amended jitterOne 3 2 429 (some 7) "r" [] 0 false).1 (by decide) (by decide),
    (c9_amended jitterOne 3 2 404 Option.none "nf" [] 0 false).2.1 (by decide) (by decide)
      (by decide) (by decide) (by decide),
    (c9_amended jitterOne 3 2 404 Option.none "nf" [] 3 false).2.2.1 (by decide) (by decide)
      (by decide) (by decide) (by decide),
    (c9_amended jitterOne 3 2 304 Option.none "cached" [] 3 false).2.2.2.1 (by decide),
    (c9_amended jitterOne 3 2 999 Option.none "odd" [] 0 false).2.2.2.1 (by decide),
    (c9_amended jitterOne 3 2 404 Option.none "x" [] 0 false).2.2.2.2.1 (by decide),
    (c9_amended jitterOne 3 2 404 Option.none "x" [] 3 false).2.2.2.2.2 (by decide)⟩

/-! ## Claims about the credential refresher (C8) -/

/-- Claim C8 counterexample: the stored record holds refresh_token "r1" and
user_id "u7"; the provider's refresh response omits both.  The persisted and
returned record does keep user_id "u7" (auth.py lines 137-138 copy it), but
its refresh_token is absent — the code never copies the stored
refresh_token into the new payload, so the claim's "preserves ...
refresh_token" is false. -/
theorem c8_counterexample :
    refreshAccessToken
      (some ⟨some "a1", some "r1", some "u7", Option.none, Option.none, Option.none⟩)
      Option.none
      (.ok ⟨some "a2", Option.none, Option.none, Option.none, Option.none, Option.none⟩)
      "T0" (fun _ _ => "TX")
      = .ok ⟨some "a2", Option.none, some "u7", Option.none, some "T0", Option.none⟩ ∧
    (Tok.refresh_token ⟨some "a2", Option.none, some "u7", Option.none, some "T0", Option.none⟩)
      ≠ some "r1" :=
  ⟨rfl, by decide⟩

/-- Claim C8 (amended): when a refresh token is available and the provider
responds successfully, the resulting record's refresh_token and access_token
are exactly the provider's (the stored refresh_token is never preserved when
the response omits it), while user_id is taken from the stored record
whenever the response omits it; when neither the argument nor the stored
record carries a truthy refresh token, the call fails with the
no-refresh-token error before contacting the provider. -/
theorem c8_amended (stored : Option Tok) (arg : Option String) (payload : Tok)
    (now : String) (mk : String → Nat → String)
    (hrt : truthyStr (effectiveRefreshTok stored arg) = true) :
    (∃ p, refreshAccessToken stored arg (.ok payload) now mk = .ok p ∧
      p.refresh_token = payload.refresh_token ∧
      p.access_token = payload.access_token ∧
      (payload.user_id = Option.none → p.user_id = (stored.getD emptyTok).user_id) ∧
      (payload.user_id ≠ Option.none → p.user_id = payload.user_id)) ∧
    (∀ (stored2 : Option Tok) (arg2 : Option String) (resp2 : Except Nat Tok) now2 mk2,
      truthyStr (effectiveRefreshTok stored2 arg2) = false →
      refreshAccessToken stored2 arg2 resp2 now2 mk2
        = .error "Nenhum refresh_token disponivel. Refaca o OAuth.") := by
  constructor
  · simp only [refreshAccessToken]
    rw [hrt]
    simp only [Bool.true_eq_false, if_false]
    refine ⟨_, rfl, ?_, ?_, ?_, ?_⟩
    · split_ifs <;> rfl
    · split_ifs <;> rfl
    · intro hnone
      split_ifs with h1 h2 h2 <;> simp_all
    · intro hsome
      split_ifs with h1 h2 h2 <;> simp_all
  · intro stored2 arg2 resp2 now2 mk2 h
    simp only [refreshAccessToken]
    rw [h]
    rfl

/-- Witness for c8_amended: stored record with refresh_token "r1" and
user_id "u7", no argument token, provider response carrying only a new
access token. -/
theorem c8_amended_witness :
    (∃ p, refreshAccessToken
        (some ⟨some "a1", some "r1", some "u7", Option.none, Option.none, Option.none⟩)
        Option.none
        (.ok ⟨some "a2", Option.none, Option.none, Option.none, Option.none, Option.none⟩)
        "T0" (fun _ _ => "TX") = .ok p ∧
      p.refresh_token = (Tok.refresh_token
        ⟨some "a2", Option.none, Option.none, Option.none, Option.none, Option.none⟩) ∧
      p.access_token = (Tok.access_token
        ⟨some "a2", Option.none, Option.none, Option.none, Option.none, Option.none⟩) ∧
      ((Tok.user_id ⟨some "a2", Option.none, Option.none, Option.none, Option.none, Option.none⟩)
          = Option.none →
        p.user_id = ((some
          (⟨some "a1", some "r1", some "u7", Option.none, Option.none,
            Option.none⟩ : Tok)).getD emptyTok).user_id) ∧
      ((Tok.user_id ⟨some "a2", Option.none, Option.none, Option.none, Option.none, Option.none⟩)
          ≠ Option.none →
        p.user_id = (Tok.user_id
          ⟨some "a2", Option.none, Option.none, Option.none, Option.none, Option.none⟩))) ∧
    (∀ (stored2 : Option Tok) (arg2 : Option String) (resp2 : Except Nat Tok) now2 mk2,
      truthyStr (effectiveRefreshTok stored2 arg2) = false →
      refreshAccessToken stored2 arg2 resp2 now2 mk2
        = .error "Nenhum refresh_token disponivel. Refaca o OAuth.") :=
  c8_amended
    (some ⟨some "a1", some "r1", some "u7", Option.none, Option.none, Option.none⟩)
    Option.none
    ⟨some "a2", Option.none, Option.none, Option.none, Option.none, Option.none⟩
    "T0" (fun _ _ => "TX") (by decide)

/-! ## Claim about the atomic-write mechanics (C3) -/

/-- Claim C3: the claim (and the intent documented by the name
_write_atomic and the "tmp + rename" comment) is a temp file in the same
directory as the target, renamed atomically.  Evaluating the embedded write
mechanics at target "data/processed/ads.csv" with the system temp directory
"/tmp": the temp file is created at "/tmp/ads.csv_k3x9.tmp", whose directory
"/tmp" differs from the target's directory "data/processed", so the final
shutil.move is a cross-directory move — a plain os.rename only when both
happen to live on one filesystem, and a non-atomic copy-then-delete
otherwise. -/
theorem c3_eval :
    atomicWriteOps "/tmp" "k3x9" "data/processed/ads.csv" "id,a\n1,x\n"
      = [FsOp.createTemp "/tmp/ads.csv_k3x9.tmp",
         FsOp.writeFile "/tmp/ads.csv_k3x9.tmp" "id,a\n1,x\n",
         FsOp.move "/tmp/ads.csv_k3x9.tmp" "data/processed/ads.csv"] ∧
    pyDirname (atomicTmpPath "/tmp" "k3x9" "data/processed/ads.csv") = "/tmp" ∧
    pyDirname "data/processed/ads.csv" = "data/processed" ∧
    ("/tmp" : String) ≠ "data/processed" := by
  refine ⟨?_, ?_, ?_, ?_⟩ <;> decide

/-! ## Concrete claims about the upsert store (C1 counterexample, C4, C6
counterexample) -/

/-- Claim C1 counterexample: the dataset holds {id: "1", cost: "10"}; the
incoming row {id: "1", cost: ""} carries an empty cost.  The claim says the
empty incoming field must leave the stored "10" untouched, but
write_csv_upsert_flexible merges with {**old, **new} (report_utils.py line
158), so the written dataset's cost cell is "" — the stored value was
blanked. -/
theorem c1_counterexample :
    rget (((readCsv (writeCsvUpsertFlexible (some ⟨["id", "cost"], [["1", "10"]]⟩)
        [[("id", .str "1"), ("cost", .str "")]] ["id"] false [] [] false []).file)).getD 0 [])
        "cost" = some (Value.str "") ∧
    some (Value.str "") ≠ some (Value.str "10") :=
  ⟨by decide, by decide⟩

/-- Claim C4: the docstrings promise an idempotent upsert, but a None value
in a key field breaks byte-identity.  With key_fields = ("id",) and the
single row {id: None, x: "1"}: the first call appends it under the key
("None",) and the csv writer serializes the None cell as "", so the row
reads back with key ("",).  The identical second call computes the incoming
key ("None",) again, finds only ("",) in the index, and appends a duplicate
row: the file grows from one record to two identical records, and the two
stored rows now share the key ("",). -/
theorem c4_eval :
    (writeCsvUpsertFlexible Option.none [[("id", Value.null), ("x", .str "1")]]
        ["id"] false [] [] false []).file = ⟨["id", "x"], [["", "1"]]⟩ ∧
    (writeCsvUpsertFlexible
        (some (writeCsvUpsertFlexible Option.none [[("id", Value.null), ("x", .str "1")]]
          ["id"] false [] [] false []).file)
        [[("id", Value.null), ("x", .str "1")]] ["id"] false [] [] false []).file
      = ⟨["id", "x"], [["", "1"], ["", "1"]]⟩ ∧
    (⟨["id", "x"], [["", "1"], ["", "1"]]⟩ : CsvFile) ≠ ⟨["id", "x"], [["", "1"]]⟩ :=
  ⟨by decide, by decide, by decide⟩

/-- Claim C6 counterexample: a prior file that already contains two rows
with the same key tuple — here key_fields = ("id",) and two records with
id = "1" — is merged with an empty batch; both rows survive (the index is
last-wins but merged starts as list(existing), report_utils.py line 153),
so the resulting dataset has two rows with the stringified key ("1",):
the uniqueness invariant does not hold for every prior file content. -/
theorem c6_counterexample :
    ¬ (datasetKeys (writeCsvUpsertFlexible (some ⟨["id", "a"], [["1", "x"], ["1", "y"]]⟩)
        [] ["id"] false [] [] false []).file ["id"]).Nodup := by
  decide

/-- Claim C5 counterexample: with strict_header=true the claim says the
final header equals exactly the set of keys present across the final merged
rows.  A merged row carrying the empty-string column name "" (a legal dict
key, and what csv.DictReader uses for a spare unnamed column) is dropped by
the `if k` filter in _stable_header_from_rows (report_utils.py line 103):
the key "" is present in a merged row but absent from the header. -/
theorem c5_counterexample :
    (∃ r ∈ (writeCsvUpsertFlexible Option.none [[("", .str "x"), ("a", .str "1")]]
        ["a"] true [] [] false []).mergedRows, "" ∈ rkeys r) ∧
    "" ∉ (writeCsvUpsertFlexible Option.none [[("", .str "x"), ("a", .str "1")]]
        ["a"] true [] [] false []).file.header :=
  ⟨by decide, by decide⟩

/-! ## Dict-operation lemmas -/

/-- Reading after an assignment: the assigned key holds the new value, every
other key is untouched. -/
theorem rget_rset (r : Row) (k : String) (v : Value) (x : String) :
    rget (rset r k v) x = if x = k then some v else rget r x := by
  induction r with
  | nil =>
    rcases eq_or_ne x k with h | h
    · subst h; simp [rset, rget]
    · simp [rset, rget, h, Ne.symm h]
  | cons p rest ih =>
    rcases eq_or_ne p.1 k with h1 | h1
    · rcases eq_or_ne x k with h | h
      · subst h; simp [rset, rget, h1]
      · simp only [rset, if_pos h1, rget, if_neg (Ne.symm h), if_neg h,
          if_neg (fun hh : p.1 = x => h (hh.symm.trans h1))]
    · rcases eq_or_ne p.1 x with h2 | h2
      · simp only [rset, if_neg h1, rget, if_pos h2]
        rw [if_neg (fun hh : x = k => h1 (h2.trans hh))]
      · simp only [rset, if_neg h1, rget, if_neg h2, ih]

/-- A key is readable exactly when it is among the dict's keys. -/
theorem rget_isSome_iff (r : Row) (k : String) :
    (rget r k).isSome = true ↔ k ∈ rkeys r := by
  induction r with
  | nil => simp [rget, rkeys]
  | cons p rest ih =>
    rcases eq_or_ne p.1 k with h | h
    · simp [rget, rkeys, h]
    · simp only [rget, if_neg h, ih, rkeys, List.map_cons, List.mem_cons]
      simp [Ne.symm h]

/-- A key reads as absent exactly when it is not among the dict's keys. -/
theorem rget_eq_none_iff (r : Row) (k : String) :
    rget r k = Option.none ↔ k ∉ rkeys r := by
  rw [← rget_isSome_iff]
  cases rget r k <;> simp

/-- Reading after a pop: the popped key is gone, others are untouched. -/
theorem rget_rpop (r : Row) (f k : String) :
    rget (rpop r f) k = if k = f then Option.none else rget r k := by
  induction r with
  | nil => simp [rpop, rget]
  | cons p rest ih =>
    rcases eq_or_ne p.1 f with h1 | h1
    · simp only [rpop, List.filter] at ih ⊢
      rw [show (decide (p.1 ≠ f)) = false by simp [h1]]
      rw [ih]
      rcases eq_or_ne k f with h | h
      · simp [h]
      · simp only [if_neg h, rget]
        rw [if_neg (fun hh : p.1 = k => h (hh.symm.trans h1))]
    · simp only [rpop, List.filter] at ih ⊢
      rw [show (decide (p.1 ≠ f)) = true by simp [h1]]
      rcases eq_or_ne p.1 k with h2 | h2
      · have hk : k ≠ f := fun hh => h1 (h2.trans hh)
        simp [rget, h2, if_neg hk]
      · simp only [rget, if_neg h2, ih]

/-- Reading after the drop-fields loop: dropped keys are gone, others are
untouched. -/
theorem rget_dropRow (dropF : List String) (r : Row) (k : String) :
    rget (dropRow dropF r) k = if k ∈ dropF then Option.none else rget r k := by
  induction dropF generalizing r with
  | nil => simp [dropRow]
  | cons d ds ih =>
    show rget (dropRow ds (rpop r d)) k = _
    rw [ih (rpop r d), rget_rpop]
    by_cases h1 : k ∈ ds
    · simp [h1]
    · by_cases h2 : k = d
      · simp [h1, h2]
      · simp [h1, h2]

/-- Reading the row after upsert_csv's matched-row update (csv_utils.py
lines 145-159): a header column whose incoming value is kept (present and
neither "" nor None) holds the incoming value; every other column keeps the
stored value. -/
theorem updateRow_rget (header : List String) (old r : Row) (c : String) :
    rget (updateRow header old r) c =
      if c ∈ header ∧ keepVal (rget r c) = true then rget r c else rget old c := by
  induction header generalizing old with
  | nil => simp [updateRow]
  | cons h0 hs ih =>
    have unfold1 : updateRow (h0 :: hs) old r
        = updateRow hs
            (match rget r h0 with
             | some v => if v = Value.str "" ∨ v = Value.null then old else rset old h0 v
             | Option.none => old) r := rfl
    rw [unfold1, ih]
    by_cases hc : c ∈ hs ∧ keepVal (rget r c) = true
    · rw [if_pos hc, if_pos ⟨List.mem_cons_of_mem _ hc.1, hc.2⟩]
    · rw [if_neg hc]
      by_cases hch : c = h0
      · subst hch
        cases hv : rget r c with
        | none => simp [keepVal]
        | some v =>
          by_cases hemp : v = Value.str "" ∨ v = Value.null
          · have hkeep : keepVal (some v) = false := by
              simp only [keepVal, decide_eq_false_iff_not]
              push_neg
              exact fun h1 => hemp.resolve_left h1
            show rget (if v = Value.str "" ∨ v = Value.null then old else rset old c v) c
                = if c ∈ c :: hs ∧ keepVal (some v) = true then some v else rget old c
            rw [if_pos hemp, hkeep]
            simp
          · have hkeep : keepVal (some v) = true := by
              simp only [keepVal, decide_eq_true_eq]
              push_neg at hemp
              exact hemp
            show rget (if v = Value.str "" ∨ v = Value.null then old else rset old c v) c
                = if c ∈ c :: hs ∧ keepVal (some v) = true then some v else rget old c
            rw [if_neg hemp, rget_rset, if_pos rfl, hkeep]
            simp
      · have hstep : rget (match rget r h0 with
              | some v => if v = Value.str "" ∨ v = Value.null then old else rset old h0 v
              | Option.none => old) c = rget old c := by
          cases hv : rget r h0 with
          | none => rfl
          | some v =>
            show rget (if v = Value.str "" ∨ v = Value.null then old else rset old h0 v) c
                = rget old c
            by_cases hemp : v = Value.str "" ∨ v = Value.null
            · rw [if_pos hemp]
            · rw [if_neg hemp, rget_rset, if_neg hch]
        rw [hstep]
        have hiff : (c ∈ h0 :: hs ∧ keepVal (rget r c) = true)
            ↔ (c ∈ hs ∧ keepVal (rget r c) = true) := by
          simp [List.mem_cons, hch]
        rw [if_neg (fun hh => hc (hiff.mp hh))]

/-- Reading the row after the flexible store's matched-row merge
{**old, **r} (report_utils.py line 158): every key present in the incoming
dict wins — even when its value is "" or None — and keys absent from the
incoming dict keep the stored value. -/
theorem dictUnion_rget (old r : Row) (k : String) (hr : (rkeys r).Nodup) :
    rget (dictUnion old r) k
      = match rget r k with | some v => some v | Option.none => rget old k := by
  induction r generalizing old with
  | nil => simp [dictUnion, rget]
  | cons p rest ih =>
    rw [show rkeys (p :: rest) = p.1 :: rkeys rest from rfl, List.nodup_cons] at hr
    show rget (dictUnion (rset old p.1 p.2) rest) k = _
    rw [ih _ hr.2]
    cases hv : rget rest k with
    | some v =>
      have hk : k ∈ rkeys rest := (rget_isSome_iff rest k).mp (by rw [hv]; rfl)
      have hpk : p.1 ≠ k := fun hh => hr.1 (hh ▸ hk)
      simp [rget, hpk, hv]
    | none =>
      rw [rget_rset]
      rcases eq_or_ne k p.1 with h | h
      · subst h
        simp [rget, hv]
      · simp [rget, h, Ne.symm h, hv]

/-- Claim C1 (amended): the matched-key merge semantics of the two upsert
implementations differ.  In upsert_csv, a header column whose incoming
value is non-empty (neither "" nor None) overwrites the stored value and
every other column — absent, "" or None incoming, or outside the header —
keeps the stored value.  In write_csv_upsert_flexible, every field present
in the incoming row overwrites the stored value even when it is "" or None,
and only fields absent from the incoming row keep the stored value. -/
theorem c1_amended (header : List String) (old r : Row) (c k : String)
    (hr : (rkeys r).Nodup) :
    (rget (updateRow header old r) c
      = if c ∈ header ∧ keepVal (rget r c) = true then rget r c else rget old c) ∧
    (rget (dictUnion old r) k
      = match rget r k with | some v => some v | Option.none => rget old k) :=
  ⟨updateRow_rget header old r c, dictUnion_rget old r k hr⟩

/-- Witness for c1_amended: the stored row {id: "1", cost: "10"} updated by
the incoming row {id: "1", cost: ""}. -/
theorem c1_amended_witness :
    (rget (updateRow ["id", "cost"] [("id", .str "1"), ("cost", .str "10")]
        [("id", .str "1"), ("cost", .str "")]) "cost"
      = if "cost" ∈ ["id", "cost"]
            ∧ keepVal (rget [("id", .str "1"), ("cost", .str "")] "cost") = true
        then rget [("id", .str "1"), ("cost", .str "")] "cost"
        else rget [("id", .str "1"), ("cost", .str "10")] "cost") ∧
    (rget (dictUnion [("id", .str "1"), ("cost", .str "10")]
        [("id", .str "1"), ("cost", .str "")]) "cost"
      = match rget [("id", .str "1"), ("cost", .str "")] "cost" with
        | some v => some v
        | Option.none => rget [("id", .str "1"), ("cost", .str "10")] "cost") :=
  c1_amended ["id", "cost"] [("id", .str "1"), ("cost", .str "10")]
    [("id", .str "1"), ("cost", .str "")] "cost" "cost" (by decide)

/-! ## Claim C10: the flexible upsert mutates the caller's rows -/

/-- Entry j of the caller's row list after the drop loop: popped when some
merged slot references it, untouched otherwise. -/
theorem mutHeapAux_getD (cells : List Cell) (dropF : List String) (l : List Row)
    (i j : Nat) (hj : j < l.length) :
    (mutHeapAux cells dropF l i).getD j []
      = if cells.contains (Cell.ref (i + j)) then dropRow dropF (l.getD j []) else l.getD j [] := by
  induction l generalizing i j with
  | nil => cases hj
  | cons r rest ih =>
    cases j with
    | zero =>
      simp [mutHeapAux, List.getD_cons_zero]
    | succ n =>
      have hn : n < rest.length := Nat.lt_of_succ_lt_succ hj
      show (mutHeapAux cells dropF rest (i + 1)).getD n [] = _
      rw [ih (i + 1) n hn]
      have : i + 1 + n = i + (n + 1) := by omega
      rw [this]
      simp [List.getD_cons_succ]

/-- Claim C10: for every flexible-upsert call, every caller row that was
appended under a new key (that is, referenced by a merged slot) is mutated
in place by a non-empty drop_fields option: after the call the caller's
dict has every drop field popped, reads back absent at each drop field, is
exactly the object the merged output rows contain, and differs from its
pre-call value whenever it actually carried a dropped field. -/
theorem c10_mutation (file : Option CsvFile) (newRows : List Row) (kf : List String)
    (strict : Bool) (dropF : List String) (sortBy : List String) (reset : Bool)
    (fallback : List String) (i : Nat) (f : String)
    (href : Cell.ref i ∈ flexCells file newRows kf reset)
    (hf : f ∈ dropF) (hi : i < newRows.length) :
    ((writeCsvUpsertFlexible file newRows kf strict dropF sortBy reset fallback).heapAfter.getD i []
        = dropRow dropF (newRows.getD i [])) ∧
    (rget ((writeCsvUpsertFlexible file newRows kf strict dropF sortBy reset
        fallback).heapAfter.getD i []) f = Option.none) ∧
    dropRow dropF (newRows.getD i [])
        ∈ (writeCsvUpsertFlexible file newRows kf strict dropF sortBy reset fallback).mergedRows ∧
    (rget (newRows.getD i []) f ≠ Option.none →
      (writeCsvUpsertFlexible file newRows kf strict dropF sortBy reset fallback).heapAfter.getD i []
        ≠ newRows.getD i []) := by
  have hcont : (flexCells file newRows kf reset).contains (Cell.ref i) = true :=
    List.elem_eq_true_of_mem href
  have h1 : (writeCsvUpsertFlexible file newRows kf strict dropF sortBy reset
      fallback).heapAfter.getD i [] = dropRow dropF (newRows.getD i []) := by
    show (mutHeapAux (flexCells file newRows kf reset) dropF newRows 0).getD i [] = _
    rw [mutHeapAux_getD _ _ _ 0 i hi, Nat.zero_add, if_pos hcont]
  have h2 : rget (dropRow dropF (newRows.getD i [])) f = Option.none := by
    rw [rget_dropRow, if_pos hf]
  refine ⟨h1, by rw [h1]; exact h2, ?_, ?_⟩
  · show dropRow dropF (newRows.getD i []) ∈ flexSortRows sortBy
      (((flexCells file newRows kf reset).map (dropCell dropF)).map
        (derefC (mutHeapAux (flexCells file newRows kf reset) dropF newRows 0)))
    have hm1 : Cell.ref i ∈ (flexCells file newRows kf reset).map (dropCell dropF) := by
      have := List.mem_map_of_mem (dropCell dropF) href
      simpa [dropCell] using this
    have hm2 := List.mem_map_of_mem
      (derefC (mutHeapAux (flexCells file newRows kf reset) dropF newRows 0)) hm1
    have hd : derefC (mutHeapAux (flexCells file newRows kf reset) dropF newRows 0)
        (Cell.ref i) = dropRow dropF (newRows.getD i []) := by
      show (mutHeapAux (flexCells file newRows kf reset) dropF newRows 0).getD i [] = _
      rw [mutHeapAux_getD _ _ _ 0 i hi, Nat.zero_add, if_pos hcont]
    rw [hd] at hm2
    cases sortBy with
    | nil => exact hm2
    | cons s ss => exact (List.mem_insertionSort _).mpr hm2
  · intro hne heq
    rw [heq] at h1
    rw [← h1] at h2
    exact hne h2

/-- Witness for c10_mutation: one new row {id: "1", ad_id: "9"} appended
into a fresh dataset with drop_fields = ("ad_id",): the caller's dict comes
back as {id: "1"} — ad_id was popped from the caller-owned object. -/
theorem c10_mutation_witness :
    ((writeCsvUpsertFlexible Option.none [[("id", .str "1"), ("ad_id", .str "9")]]
        ["id"] false ["ad_id"] [] false []).heapAfter.getD 0 []
      = dropRow ["ad_id"] ([[("id", .str "1"), ("ad_id", .str "9")]].getD 0 [])) ∧
    (rget ((writeCsvUpsertFlexible Option.none [[("id", .str "1"), ("ad_id", .str "9")]]
        ["id"] false ["ad_id"] [] false []).heapAfter.getD 0 []) "ad_id" = Option.none) ∧
    dropRow ["ad_id"] ([[("id", .str "1"), ("ad_id", .str "9")]].getD 0 [])
      ∈ (writeCsvUpsertFlexible Option.none [[("id", .str "1"), ("ad_id", .str "9")]]
        ["id"] false ["ad_id"] [] false []).mergedRows ∧
    (rget ([[("id", .str "1"), ("ad_id", .str "9")]].getD 0 []) "ad_id" ≠ Option.none →
      (writeCsvUpsertFlexible Option.none [[("id", .str "1"), ("ad_id", .str "9")]]
        ["id"] false ["ad_id"] [] false []).heapAfter.getD 0 []
        ≠ [[("id", .str "1"), ("ad_id", .str "9")]].getD 0 []) :=
  c10_mutation Option.none [[("id", .str "1"), ("ad_id", .str "9")]] ["id"] false
    ["ad_id"] [] false [] 0 "ad_id" (by decide) (by decide) (by decide)

/-! ## Lexicographic order facts for the header computation -/

/-- Totality of the code-point lexicographic comparison. -/
theorem strDataLe_total (a b : List Char) : strDataLe a b = true ∨ strDataLe b a = true := by
  induction a generalizing b with
  | nil => exact Or.inl rfl
  | cons x xs ih =>
    cases b with
    | nil => exact Or.inr rfl
    | cons y ys =>
      rcases eq_or_ne x y with h | h
      · subst h
        simp only [strDataLe, if_pos rfl]
        exact ih ys
      · rcases lt_trichotomy x y with hlt | heq | hgt
      
        · exact Or.inl (by simp [strDataLe, h, hlt])
        · exact absurd heq h
        · exact Or.inr (by simp [strDataLe, Ne.symm h, hgt])

/-- Transitivity of the code-point lexicographic comparison. -/
theorem strDataLe_trans (a b c : List Char) (h1 : strDataLe a b = true)
    (h2 : strDataLe b c = true) : strDataLe a c = true := by
  induction a generalizing b c with
  | nil => rfl
  | cons x xs ih =>
    cases b with
    | nil => cases h1
    | cons y ys =>
      cases c with
      | nil => cases h2
      | cons z zs =>
        rcases eq_or_ne x y with hxy | hxy
        · subst hxy
          rcases eq_or_ne x z with hxz | hxz
          · subst hxz
            simp only [strDataLe, if_pos rfl] at h1 h2 ⊢
            exact ih ys zs h1 h2
          · simp only [strDataLe, if_pos rfl] at h1
            simp only [strDataLe, if_neg hxz] at h2 ⊢
            exact h2
        · rcases eq_or_ne y z with hyz | hyz
          · subst hyz
            simp only [strDataLe, if_neg hxy] at h1 ⊢
            exact h1
          · simp only [strDataLe, if_neg hxy] at h1
            simp only [strDataLe, if_neg hyz] at h2
            have hxz : x < z := lt_trans (of_decide_eq_true h1) (of_decide_eq_true h2)
            simp [strDataLe, ne_of_lt hxz, hxz]

instance : IsTotal String (fun a b => strLeB a b = true) :=
  ⟨fun a b => strDataLe_total a.data b.data⟩

instance : IsTrans String (fun a b => strLeB a b = true) :=
  ⟨fun a b c => strDataLe_trans a.data b.data c.data⟩

/-! ## Header-membership lemmas and claim C5 -/

/-- Membership in the column universe: the old-header columns (when not
strict) plus every non-empty key present in some row. -/
theorem mem_headerKeys (hdr : List String) (rows : List Row) (strict : Bool) (k : String) :
    k ∈ headerKeys hdr rows strict
      ↔ (k ∈ (if strict then ([] : List String) else hdr)
          ∨ (k ≠ "" ∧ ∃ r ∈ rows, k ∈ rkeys r)) := by
  rw [headerKeys, List.mem_dedup, List.mem_append]
  constructor
  · rintro (h | h)
    · exact Or.inl h
    · rcases List.mem_flatten.mp h with ⟨l, hl, hkl⟩
      rcases List.mem_map.mp hl with ⟨r, hr, rfl⟩
      have hm := List.mem_filter.mp hkl
      exact Or.inr ⟨by simpa using hm.2, r, hr, hm.1⟩
  · rintro (h | ⟨hne, r, hr, hk⟩)
    · exact Or.inl h
    · refine Or.inr (List.mem_flatten.mpr ⟨_, List.mem_map_of_mem _ hr, ?_⟩)
      exact List.mem_filter.mpr ⟨hk, by simpa using hne⟩

/-- Membership in the final header equals membership in the column
universe. -/
theorem mem_stableHeader (hdr : List String) (rows : List Row) (strict : Bool) (k : String) :
    k ∈ stableHeaderFromRows hdr rows strict ↔ k ∈ headerKeys hdr rows strict := by
  rw [stableHeaderFromRows, List.mem_append]
  constructor
  · rintro (h | h)
    · exact List.mem_of_elem_eq_true (List.mem_filter.mp h).2
    · rw [sortStrings, List.mem_insertionSort] at h
      exact (List.mem_filter.mp h).1
  · intro h
    by_cases hp : k ∈ headerPrimary hdr rows strict
    · exact Or.inl hp
    · refine Or.inr ?_
      rw [sortStrings, List.mem_insertionSort]
      refine List.mem_filter.mpr ⟨h, ?_⟩
      cases hcc : (headerPrimary hdr rows strict).contains k
      · rfl
      · exact absurd (List.mem_of_elem_eq_true hcc) hp

/-- The final header always contains every column of the universe and
nothing else, in particular every non-empty key of every row. -/
theorem mem_stableHeader_iff (hdr : List String) (rows : List Row) (strict : Bool)
    (k : String) :
    k ∈ stableHeaderFromRows hdr rows strict
      ↔ (k ∈ (if strict then ([] : List String) else hdr)
          ∨ (k ≠ "" ∧ ∃ r ∈ rows, k ∈ rkeys r)) :=
  (mem_stableHeader hdr rows strict k).trans (mem_headerKeys hdr rows strict k)

/-- Two lists with the same membership agree on contains. -/
theorem contains_congr {l1 l2 : List String} (h : ∀ x, x ∈ l1 ↔ x ∈ l2) (x : String) :
    l1.contains x = l2.contains x := by
  show l1.elem x = l2.elem x
  by_cases hm : x ∈ l2
  · rw [List.elem_eq_true_of_mem hm, List.elem_eq_true_of_mem ((h x).mpr hm)]
  · cases h1 : List.elem x l1
    · cases h2 : List.elem x l2
      · rfl
      · exact absurd (List.mem_of_elem_eq_true h2) hm
    · exact absurd ((h x).mp (List.mem_of_elem_eq_true h1)) hm

/-- Claim C5 (amended): with strict_header=true the final header equals
exactly the set of NON-EMPTY keys present across the final merged rows (the
`if k` filter in _stable_header_from_rows silently drops an empty-string
column name), ordered with the fixed preferred columns first and all
remaining columns in code-point lexicographic order; with
strict_header=false every column of the prior file's header (or of the
fallback header that seeded it) is retained in the final header even if no
merged row populates it. -/
theorem c5_amended (file : Option CsvFile) (newRows : List Row) (kf : List String)
    (dropF sortBy fallback : List String) (reset : Bool) :
    (∀ k, k ∈ (writeCsvUpsertFlexible file newRows kf true dropF sortBy reset
          fallback).file.header
        ↔ (k ≠ "" ∧ ∃ r ∈ (writeCsvUpsertFlexible file newRows kf true dropF sortBy reset
            fallback).mergedRows, k ∈ rkeys r)) ∧
    (∃ rest, (writeCsvUpsertFlexible file newRows kf true dropF sortBy reset
          fallback).file.header
        = PRIMARY_COL_ORDER.filter (fun c =>
            ((writeCsvUpsertFlexible file newRows kf true dropF sortBy reset
              fallback).file.header).contains c) ++ rest
      ∧ rest.Sorted (fun a b => strLeB a b = true)
      ∧ ∀ c ∈ rest, c ∉ PRIMARY_COL_ORDER) ∧
    (∀ c ∈ flexHeaderOld file reset fallback,
      c ∈ (writeCsvUpsertFlexible file newRows kf false dropF sortBy reset
        fallback).file.header) := by
  refine ⟨?_, ?_, ?_⟩
  · intro k
    show k ∈ stableHeaderFromRows (flexHeaderOld file reset fallback)
        (writeCsvUpsertFlexible file newRows kf true dropF sortBy reset fallback).mergedRows
        true ↔ _
    rw [mem_stableHeader_iff]
    simp only [if_true, List.not_mem_nil, false_or]
  · refine ⟨sortStrings ((headerKeys (flexHeaderOld file reset fallback)
      (writeCsvUpsertFlexible file newRows kf true dropF sortBy reset fallback).mergedRows
      true).filter (fun k => !(headerPrimary (flexHeaderOld file reset fallback)
        (writeCsvUpsertFlexible file newRows kf true dropF sortBy reset fallback).mergedRows
        true).contains k)), ?_, ?_, ?_⟩
    · show stableHeaderFromRows (flexHeaderOld file reset fallback)
          (writeCsvUpsertFlexible file newRows kf true dropF sortBy reset
            fallback).mergedRows true = _
      rw [stableHeaderFromRows]
      congr 1
      rw [headerPrimary]
      refine List.filter_congr ?_
      intro c _
      exact contains_congr (fun x => (mem_stableHeader _ _ _ x).symm) c
    · exact List.sorted_insertionSort _ _
    · intro c hc
      rw [sortStrings, List.mem_insertionSort] at hc
      have hm := List.mem_filter.mp hc
      intro hcP
      have hinP : c ∈ headerPrimary (flexHeaderOld file reset fallback)
          (writeCsvUpsertFlexible file newRows kf true dropF sortBy reset
            fallback).mergedRows true :=
        List.mem_filter.mpr ⟨hcP, List.elem_eq_true_of_mem hm.1⟩
      have h2 : (headerPrimary (flexHeaderOld file reset fallback)
          (writeCsvUpsertFlexible file newRows kf true dropF sortBy reset
            fallback).mergedRows true).contains c = true :=
        List.elem_eq_true_of_mem hinP
      have h3 := hm.2
      rw [h2] at h3
      simp at h3
  · intro c hc
    show c ∈ stableHeaderFromRows (flexHeaderOld file reset fallback)
        (writeCsvUpsertFlexible file newRows kf false dropF sortBy reset
          fallback).mergedRows false
    rw [mem_stableHeader_iff]
    simp only [Bool.false_eq_true, if_false]
    exact Or.inl hc

/-- Witness for c5_amended: a fresh dataset receiving one row
{date: ..., cost: ...} with fallback header ["legacy"]; the strict header is
exactly {date, cost} (date first as a preferred column), and the non-strict
header retains the seeded "legacy" column no row populates. -/
theorem c5_amended_witness :
    ("date" ∈ (writeCsvUpsertFlexible Option.none
        [[("date", .str "2025-01-01"), ("cost", .str "1")]] ["date"] true [] [] false
        ["legacy"]).file.header
      ↔ ("date" ≠ "" ∧ ∃ r ∈ (writeCsvUpsertFlexible Option.none
          [[("date", .str "2025-01-01"), ("cost", .str "1")]] ["date"] true [] [] false
          ["legacy"]).mergedRows, "date" ∈ rkeys r)) ∧
    (∃ rest, (writeCsvUpsertFlexible Option.none
          [[("date", .str "2025-01-01"), ("cost", .str "1")]] ["date"] true [] [] false
          ["legacy"]).file.header
        = PRIMARY_COL_ORDER.filter (fun c =>
            ((writeCsvUpsertFlexible Option.none
              [[("date", .str "2025-01-01"), ("cost", .str "1")]] ["date"] true [] [] false
              ["legacy"]).file.header).contains c) ++ rest
      ∧ rest.Sorted (fun a b => strLeB a b = true)
      ∧ ∀ c ∈ rest, c ∉ PRIMARY_COL_ORDER) ∧
    "legacy" ∈ (writeCsvUpsertFlexible Option.none
        [[("date", .str "2025-01-01"), ("cost", .str "1")]] ["date"] false [] [] false
        ["legacy"]).file.header := by
  have h := c5_amended Option.none [[("date", .str "2025-01-01"), ("cost", .str "1")]]
    ["date"] [] [] ["legacy"] false
  exact ⟨h.1 "date", h.2.1, h.2.2 "legacy" (by decide)⟩

/-! ## List and key lemmas for the uniqueness invariant (C6) -/

/-- Equal maps over a list agree pointwise on its members. -/
theorem map_eq_imp_pointwise {α β : Type} {f g : α → β} :
    ∀ {l : List α}, l.map f = l.map g → ∀ a ∈ l, f a = g a := by
  intro l
  induction l with
  | nil => intro _ a ha; cases ha
  | cons x xs ih =>
    intro h a ha
    simp only [List.map_cons, List.cons.injEq] at h
    rcases List.mem_cons.mp ha with rfl | ha
    · exact h.1
    · exact ih h.2 a ha

/-- getD through a map, at the mapped default. -/
theorem getD_map {α β : Type} (f : α → β) (l : List α) (n : Nat) (d : α) :
    (l.map f).getD n (f d) = f (l.getD n d) := by
  induction l generalizing n with
  | nil => simp
  | cons x xs ih =>
    cases n with
    | zero => simp
    | succ m => simp [ih m]

/-- Setting an index to the value it already holds is the identity. -/
theorem set_getD_self {α : Type} (l : List α) (n : Nat) (d : α) (h : n < l.length) :
    l.set n (l.getD n d) = l := by
  induction l generalizing n with
  | nil => cases h
  | cons x xs ih =>
    cases n with
    | zero => simp
    | succ m => simpa using ih m (Nat.lt_of_succ_lt_succ h)

/-- getD after set at the same in-range index. -/
theorem getD_set_eq {α : Type} (l : List α) (n : Nat) (a d : α) (h : n < l.length) :
    (l.set n a).getD n d = a := by
  simp [List.getD_eq_getElem?_getD, List.getElem?_set_self, h]

/-- getD after set at a different index. -/
theorem getD_set_ne {α : Type} (l : List α) (n m : Nat) (a d : α) (h : n ≠ m) :
    (l.set n a).getD m d = l.getD m d := by
  simp [List.getD_eq_getElem?_getD, List.getElem?_set_ne h]

/-- getD into the left part of an append. -/
theorem getD_append_left {α : Type} (l t : List α) (n : Nat) (d : α) (h : n < l.length) :
    (l ++ t).getD n d = l.getD n d := by
  simp [List.getD_eq_getElem?_getD, List.getElem?_append_left h]

/-- getD at the old length after appending one element. -/
theorem getD_append_len {α : Type} (l : List α) (a d : α) :
    (l ++ [a]).getD l.length d = a := by
  simp [List.getD_eq_getElem?_getD]

/-- getD past the end is the default. -/
theorem getD_of_le_length {α : Type} (l : List α) (n : Nat) (d : α) (h : l.length ≤ n) :
    l.getD n d = d := by
  induction l generalizing n with
  | nil => simp [List.getD]
  | cons x xs ih =>
    cases n with
    | zero => cases h
    | succ m => simpa using ih m (Nat.le_of_succ_le_succ h)

/-- An in-range getD is a member. -/
theorem mem_getD {α : Type} (l : List α) (n : Nat) (d : α) (h : n < l.length) :
    l.getD n d ∈ l := by
  induction l generalizing n with
  | nil => cases h
  | cons x xs ih =>
    cases n with
    | zero => simp
    | succ m => simpa using Or.inr (ih m (Nat.lt_of_succ_lt_succ h))

/-- Decomposing a drop that exposes a cons cell. -/
theorem drop_cons_split {α : Type} (l : List α) (i : Nat) (a : α) (t : List α) (d : α)
    (h : l.drop i = a :: t) : l.drop (i + 1) = t ∧ l.getD i d = a := by
  induction l generalizing i with
  | nil => simp at h
  | cons x xs ih =>
    cases i with
    | zero =>
      simp only [List.drop_zero] at h
      cases h
      simp
    | succ m =>
      simp only [List.drop_succ_cons] at h
      have := ih m h
      simpa using this

/-- The drop-fields phase keeps the caller list's length. -/
theorem length_mutHeapAux (cells : List Cell) (dropF : List String) (l : List Row)
    (i : Nat) : (mutHeapAux cells dropF l i).length = l.length := by
  induction l generalizing i with
  | nil => rfl
  | cons r rest ih => simpa [mutHeapAux] using ih (i + 1)

/-- A successful read exhibits an entry of the dict. -/
theorem rget_mem (r : Row) (k : String) (v : Value) (h : rget r k = some v) :
    (k, v) ∈ r := by
  induction r with
  | nil => cases h
  | cons p rest ih =>
    by_cases hp : p.1 = k
    · rw [rget, if_pos hp] at h
      cases h
      simp only [List.mem_cons]
      left
      rw [← hp]
    · rw [rget, if_neg hp] at h
      exact List.mem_cons_of_mem _ (ih h)

/-- Reading a self-tabulated dict. -/
theorem rget_mapSelf (hdr : List String) (g : String → Value) (k : String) :
    rget (hdr.map (fun c => (c, g c))) k
      = if k ∈ hdr then some (g k) else Option.none := by
  induction hdr with
  | nil => simp [rget]
  | cons c cs ih =>
    by_cases hc : c = k
    · subst hc
      simp [rget, ih]
    · simp only [List.map_cons, rget, if_neg hc, ih, List.mem_cons]
      rcases eq_or_ne k c with h | h
      · exact absurd h.symm hc
      · simp [h]

/-- The row csv.DictReader reconstructs from a record this store wrote. -/
theorem readRow_writeRecord (hdr : List String) (r : Row) :
    (hdr.zip (writeRecord hdr r)).map (fun p => (p.1, Value.str p.2))
      = hdr.map (fun c => (c, Value.str (cellStr r c))) := by
  induction hdr with
  | nil => rfl
  | cons c cs ih => simpa [writeRecord] using ih

/-- An index binding survives further index building. -/
theorem buildIndexAux_mono (key : Row → List String) (l : List Row) (i : Nat)
    (idx : Index) (k : List String) (h : (ilookup idx k).isSome = true) :
    (ilookup (buildIndexAux key l i idx) k).isSome = true := by
  induction l generalizing i idx with
  | nil => exact h
  | cons r rest ih =>
    refine ih (i + 1) ((key r, i) :: idx) ?_
    rw [ilookup]
    by_cases hk : key r = k
    · rw [if_pos hk]; rfl
    · rw [if_neg hk]; exact h

/-- Soundness of the built index: every binding points at an in-range row
holding exactly that key, or was already in the starting index. -/
theorem buildIndexAux_sound (key : Row → List String) (l : List Row) (i : Nat)
    (idx : Index) (k : List String) (pos : Nat)
    (h : ilookup (buildIndexAux key l i idx) k = some pos) :
    (∃ j, j < l.length ∧ pos = i + j ∧ key (l.getD j []) = k) ∨ ilookup idx k = some pos := by
  induction l generalizing i idx with
  | nil => exact Or.inr h
  | cons r rest ih =>
    rcases ih (i + 1) ((key r, i) :: idx) h with ⟨j, hj, rfl, hk⟩ | hbase
    · exact Or.inl ⟨j + 1, by simpa using hj, by omega, by simpa using hk⟩
    · rw [ilookup] at hbase
      by_cases hk : key r = k
      · rw [if_pos hk] at hbase
        cases hbase
        exact Or.inl ⟨0, by simp, by omega, by simpa using hk⟩
      · rw [if_neg hk] at hbase
        exact Or.inr hbase

/-- Completeness of the built index: every processed row's key is bound. -/
theorem buildIndexAux_complete (key : Row → List String) (l : List Row) (i : Nat)
    (idx : Index) (j : Nat) (hj : j < l.length) :
    (ilookup (buildIndexAux key l i idx) (key (l.getD j []))).isSome = true := by
  induction l generalizing i idx j with
  | nil => cases hj
  | cons r rest ih =>
    cases j with
    | zero =>
      refine buildIndexAux_mono key rest (i + 1) ((key r, i) :: idx) _ ?_
      simp [ilookup]
    | succ m =>
      simpa using ih (i + 1) ((key r, i) :: idx) m (Nat.lt_of_succ_lt_succ hj)

/-- Keys of the flexible merge are preserved by the {**old, **r} update. -/
theorem flexKey_dictUnion (old r : Row) (kf : List String)
    (hnd : (rkeys r).Nodup) (hk : flexKey kf old = flexKey kf r) :
    flexKey kf (dictUnion old r) = flexKey kf old := by
  have hpt := map_eq_imp_pointwise hk
  refine List.map_congr_left ?_
  intro k hkmem
  rw [dictUnion_rget old r k hnd]
  cases hv : rget r k with
  | none => rfl
  | some v =>
    have hp := hpt k hkmem
    rw [hv] at hp
    exact hp.symm

/-- Keys of upsert_csv are preserved by the non-empty-field update. -/
theorem rowKey_updateRow (header : List String) (old r : Row) (kf : List String)
    (hk : rowKey kf old = rowKey kf r) :
    rowKey kf (updateRow header old r) = rowKey kf old := by
  have hpt := map_eq_imp_pointwise hk
  refine List.map_congr_left ?_
  intro k hkmem
  show cellStr (updateRow header old r) k = cellStr old k
  rw [cellStr, updateRow_rget]
  by_cases hc : k ∈ header ∧ keepVal (rget r k) = true
  · rw [if_pos hc]
    have hp := hpt k hkmem
    exact hp.symm
  · rw [if_neg hc]
    rfl

/-- Keys of upsert_csv are preserved by the new-row header projection, as
long as every key field is a header column. -/
theorem rowKey_projRow (header : List String) (r : Row) (kf : List String)
    (hh : ∀ k ∈ kf, k ∈ header) :
    rowKey kf (projRow header r) = rowKey kf r := by
  refine List.map_congr_left ?_
  intro k hkmem
  show cellStr (projRow header r) k = cellStr r k
  rw [cellStr, projRow, rget_mapSelf, if_pos (hh k hkmem)]
  cases hv : rget r k with
  | none => simp [cellStr, hv, pyStr]
  | some v =>
    cases v with
    | str s => simp [cellStr, hv, pyStr]
    | int n => simp [cellStr, hv, pyStr]
    | null => simp [cellStr, hv]

/-- Keys of the flexible merge are unchanged by popping non-key fields. -/
theorem flexKey_dropRow (dropF : List String) (r : Row) (kf : List String)
    (hk : ∀ k ∈ kf, k ∉ dropF) :
    flexKey kf (dropRow dropF r) = flexKey kf r := by
  refine List.map_congr_left ?_
  intro k hkmem
  rw [rget_dropRow, if_neg (hk k hkmem)]

/-- The sort phase of the flexible store permutes the rows. -/
theorem flexSortRows_perm (sortBy : List String) (rows : List Row) :
    (flexSortRows sortBy rows).Perm rows := by
  cases sortBy with
  | nil => exact List.Perm.refl rows
  | cons s ss => exact List.perm_insertionSort _ rows

/-- The merge loop of the flexible store preserves the index invariant and
key-field stability, so the final slot keys are pairwise distinct.  The
caller's list is untouched during the merge, l is the suffix of it still to
process and i its offset. -/
theorem flexMergeAux_inv (heap : List Row) (kf : List String) :
    ∀ (l : List Row) (i : Nat) (cells : List Cell) (idx : Index),
    heap.drop i = l →
    (∀ r ∈ l, (rkeys r).Nodup) →
    (∀ r ∈ l, ∀ k ∈ kf, rget r k ≠ some Value.null) →
    FlexInv heap kf cells idx →
    StabCells heap kf cells →
    ((flexMergeAux heap kf l i cells idx).map (cellKey heap kf)).Nodup ∧
      StabCells heap kf (flexMergeAux heap kf l i cells idx) := by
  intro l
  induction l with
  | nil =>
    intro i cells idx _ _ _ hinv hstab
    exact ⟨hinv.1, hstab⟩
  | cons r rest ih =>
    intro i cells idx hdrop hnd hstabl hinv hstab
    obtain ⟨hdrop1, hri⟩ := drop_cons_split heap i r rest [] hdrop
    have hndr : (rkeys r).Nodup := hnd r (List.mem_cons_self r rest)
    have hstabr : ∀ k ∈ kf, rget r k ≠ some Value.null :=
      hstabl r (List.mem_cons_self r rest)
    cases hlook : ilookup idx (flexKey kf r) with
    | some pos =>
      have hstep : flexMergeAux heap kf (r :: rest) i cells idx
          = flexMergeAux heap kf rest (i + 1)
            (cells.set pos (.val (dictUnion (derefC heap (cells.getD pos (.val []))) r)))
            idx := by
        rw [flexMergeAux, hlook]
      rw [hstep]
      obtain ⟨hpos, hkey⟩ := hinv.2.1 _ _ hlook
      have hkold : flexKey kf (derefC heap (cells.getD pos (.val []))) = flexKey kf r := hkey
      have hknew : cellKey heap kf
          (.val (dictUnion (derefC heap (cells.getD pos (.val []))) r))
          = cellKey heap kf (cells.getD pos (.val [])) := by
        show flexKey kf (dictUnion (derefC heap (cells.getD pos (.val []))) r)
            = flexKey kf (derefC heap (cells.getD pos (.val [])))
        exact flexKey_dictUnion _ r kf hndr hkold
      have hmapeq :
          (cells.set pos (.val (dictUnion (derefC heap (cells.getD pos (.val []))) r))).map
              (cellKey heap kf) = cells.map (cellKey heap kf) := by
        rw [List.map_set, hknew, ← getD_map (cellKey heap kf) cells pos (.val []),
          set_getD_self]
        rw [List.length_map]
        exact hpos
      have hgetD : ∀ q, (cells.set pos
            (.val (dictUnion (derefC heap (cells.getD pos (.val []))) r))).getD q (.val [])
          = if q = pos
            then Cell.val (dictUnion (derefC heap (cells.getD pos (.val []))) r)
            else cells.getD q (.val []) := by
        intro q
        rcases eq_or_ne q pos with h | h
        · subst h
          rw [if_pos rfl, getD_set_eq _ _ _ _ hpos]
        · rw [if_neg h, getD_set_ne _ _ _ _ _ (Ne.symm h)]
      have hinv2 : FlexInv heap kf
          (cells.set pos (.val (dictUnion (derefC heap (cells.getD pos (.val []))) r)))
          idx := by
        refine ⟨by rw [hmapeq]; exact hinv.1, ?_, ?_⟩
        · intro k' pos' h'
          obtain ⟨hp', hk'⟩ := hinv.2.1 _ _ h'
          refine ⟨by rw [List.length_set]; exact hp', ?_⟩
          rw [hgetD]
          rcases eq_or_ne pos' pos with h | h
          · rw [if_pos h, hknew, ← h]
            exact hk'
          · rw [if_neg h]
            exact hk'
        · intro pos' h'
          rw [List.length_set] at h'
          rw [hgetD]
          rcases eq_or_ne pos' pos with h | h
          · rw [if_pos h, hknew]
            exact hinv.2.2 pos hpos
          · rw [if_neg h]
            exact hinv.2.2 pos' h'
      have hstab2 : StabCells heap kf
          (cells.set pos (.val (dictUnion (derefC heap (cells.getD pos (.val []))) r))) := by
        intro c hc k hkk
        rcases List.mem_or_eq_of_mem_set hc with hmem | rfl
        · exact hstab c hmem k hkk
        · show rget (dictUnion (derefC heap (cells.getD pos (.val []))) r) k ≠ some Value.null
          rw [dictUnion_rget _ r k hndr]
          cases hv : rget r k with
          | some v =>
            intro hcon
            apply hstabr k hkk
            rw [hv]
            exact hcon
          | none =>
            exact hstab (cells.getD pos (.val [])) (mem_getD cells pos (.val []) hpos) k hkk
      exact ih (i + 1) _ idx hdrop1 (fun x hx => hnd x (List.mem_cons_of_mem r hx))
        (fun x hx => hstabl x (List.mem_cons_of_mem r hx)) hinv2 hstab2
    | none =>
      have hstep : flexMergeAux heap kf (r :: rest) i cells idx
          = flexMergeAux heap kf rest (i + 1) (cells ++ [.ref i])
            ((flexKey kf r, cells.length) :: idx) := by
        rw [flexMergeAux, hlook]
      rw [hstep]
      have hrefKey : cellKey heap kf (.ref i) = flexKey kf r := by
        show flexKey kf (heap.getD i []) = flexKey kf r
        rw [hri]
      have hfree : flexKey kf r ∉ cells.map (cellKey heap kf) := by
        intro hmem
        rcases List.mem_map.mp hmem with ⟨c, hc, hck⟩
        rcases List.mem_iff_getElem.mp hc with ⟨q, hq, hqc⟩
        have := hinv.2.2 q hq
        rw [List.getD_eq_getElem cells (.val []) hq, hqc, hck, hlook] at this
        cases this
      have hinv2 : FlexInv heap kf (cells ++ [.ref i])
          ((flexKey kf r, cells.length) :: idx) := by
        refine ⟨?_, ?_, ?_⟩
        · rw [List.map_append]
          rw [List.nodup_append]
          refine ⟨hinv.1, List.nodup_singleton _, ?_⟩
          intro x hx hy
          simp only [List.map_cons, List.map_nil, List.mem_singleton] at hy
          rw [hy, hrefKey] at hx
          exact hfree hx
        · intro k' pos' h'
          rw [ilookup] at h'
          by_cases hk : flexKey kf r = k'
          · rw [if_pos hk] at h'
            cases h'
            refine ⟨by simp, ?_⟩
            rw [getD_append_len, hrefKey, hk]
          · rw [if_neg hk] at h'
            obtain ⟨hp', hk'⟩ := hinv.2.1 _ _ h'
            refine ⟨by simp [List.length_append]; omega, ?_⟩
            rw [getD_append_left _ _ _ _ hp']
            exact hk'
        · intro pos' h'
          rw [List.length_append, List.length_singleton] at h'
          rcases Nat.lt_succ_iff_lt_or_eq.mp h' with hlt | heq
          · rw [getD_append_left _ _ _ _ hlt, ilookup]
            by_cases hk : flexKey kf r = cellKey heap kf (cells.getD pos' (.val []))
            · rw [if_pos hk]; rfl
            · rw [if_neg hk]
              exact hinv.2.2 pos' hlt
          · subst heq
            rw [getD_append_len, hrefKey, ilookup, if_pos rfl]
            rfl
      have hstab2 : StabCells heap kf (cells ++ [.ref i]) := by
        intro c hc k hkk
        rcases List.mem_append.mp hc with hmem | hmem
        · exact hstab c hmem k hkk
        · rw [List.mem_singleton] at hmem
          subst hmem
          show rget (heap.getD i []) k ≠ some Value.null
          rw [hri]
          exact hstabr k hkk
      exact ih (i + 1) _ _ hdrop1 (fun x hx => hnd x (List.mem_cons_of_mem r hx))
        (fun x hx => hstabl x (List.mem_cons_of_mem r hx)) hinv2 hstab2

/-- Every value read back from a CSV file is a string. -/
theorem readCsv_str (F : CsvFile) (r : Row) (hr : r ∈ readCsv F) (k : String) (v : Value)
    (h : rget r k = some v) : ∃ s, v = Value.str s := by
  rcases List.mem_map.mp hr with ⟨rec, _, rfl⟩
  have hmem := rget_mem _ k v h
  rcases List.mem_map.mp hmem with ⟨p, _, hp⟩
  exact ⟨p.2, (congrArg Prod.snd hp).symm⟩

/-- The slots and index the flexible store starts from satisfy the
invariant whenever the prior rows' keys are distinct. -/
theorem flexInitInv (heap : List Row) (kf : List String) (existing : List Row)
    (hexist : (existing.map (flexKey kf)).Nodup) :
    FlexInv heap kf (existing.map Cell.val) (buildIndexAux (flexKey kf) existing 0 []) := by
  have hmap : (existing.map Cell.val).map (cellKey heap kf) = existing.map (flexKey kf) := by
    rw [List.map_map]
    rfl
  refine ⟨by rw [hmap]; exact hexist, ?_, ?_⟩
  · intro k pos h
    rcases buildIndexAux_sound (flexKey kf) existing 0 [] k pos h with ⟨j, hj, hpe, hk⟩ | hbase
    · subst hpe
      rw [Nat.zero_add]
      refine ⟨by rw [List.length_map]; exact hj, ?_⟩
      rw [getD_map Cell.val existing j []]
      exact hk
    · cases hbase
  · intro pos h
    rw [List.length_map] at h
    rw [getD_map Cell.val existing pos []]
    exact buildIndexAux_complete (flexKey kf) existing 0 [] pos h

/-- The prior rows carry no None anywhere, in particular not in key
fields. -/
theorem flexExisting_stab (file : Option CsvFile) (reset : Bool) (heap : List Row)
    (kf : List String) :
    StabCells heap kf ((flexExisting file reset).map Cell.val) := by
  intro c hc k _
  rcases List.mem_map.mp hc with ⟨r, hr, rfl⟩
  show rget r k ≠ some Value.null
  intro hcon
  rw [flexExisting] at hr
  cases hm : (if reset then Option.none else file) with
  | none =>
    rw [hm] at hr
    cases hr
  | some F =>
    rw [hm] at hr
    rcases readCsv_str F r hr k Value.null hcon with ⟨s, hs⟩
    cases hs

/-- The stringified key tuple of a written-and-reread row equals the
in-memory merge key of the flexible store, as long as key fields are
non-empty names, carry no None, and are header columns whenever the row
has them. -/
theorem fileKey_eq_flexKey (header : List String) (r : Row) (kf : List String)
    (hstabr : ∀ k ∈ kf, rget r k ≠ some Value.null)
    (hcov : ∀ k ∈ kf, k ∈ rkeys r → k ∈ header) :
    rowKey kf (header.map (fun c => (c, Value.str (cellStr r c)))) = flexKey kf r := by
  refine List.map_congr_left ?_
  intro k hkm
  show cellStr (header.map (fun c => (c, Value.str (cellStr r c)))) k
      = pyStr ((rget r k).getD (.str ""))
  rw [cellStr, rget_mapSelf]
  by_cases hkh : k ∈ header
  · rw [if_pos hkh]
    show pyStr (Value.str (cellStr r k)) = pyStr ((rget r k).getD (.str ""))
    rw [pyStr]
    cases hv : rget r k with
    | none => simp [cellStr, hv, pyStr]
    | some v =>
      cases v with
      | str s => simp [cellStr, hv, pyStr]
      | int n => simp [cellStr, hv, pyStr]
      | null => exact absurd hv (hstabr k hkm)
  · rw [if_neg hkh]
    have hrk : rget r k = Option.none := by
      rw [rget_eq_none_iff]
      intro hmem
      exact hkh (hcov k hkm hmem)
    show ("" : String) = pyStr ((rget r k).getD (.str ""))
    rw [hrk]
    rfl

/-- The dataset keys of a file this store writes are the in-memory keys of
the rows it serialized, given the per-row key correspondence. -/
theorem datasetKeys_constructed (header : List String) (rows : List Row) (kf : List String)
    (hpt : ∀ r ∈ rows,
      rowKey kf (header.map (fun c => (c, Value.str (cellStr r c)))) = flexKey kf r) :
    datasetKeys ⟨header, rows.map (writeRecord header)⟩ kf = rows.map (flexKey kf) := by
  show ((rows.map (writeRecord header)).map
      (fun rec => (header.zip rec).map (fun p => (p.1, Value.str p.2)))).map (rowKey kf)
    = rows.map (flexKey kf)
  rw [List.map_map, List.map_map]
  refine List.map_congr_left ?_
  intro r hr
  show rowKey kf ((header.zip (writeRecord header r)).map (fun p => (p.1, Value.str p.2)))
      = flexKey kf r
  rw [readRow_writeRecord]
  exact hpt r hr

/-- Uniqueness of the dataset keys written by write_csv_upsert_flexible:
if the prior file's rows have pairwise-distinct keys, no key field is
dropped or named "", and incoming key-field values are never None, then the
written dataset has at most one row per stringified key tuple. -/
theorem c6_flex_nodup (file : Option CsvFile) (newRows : List Row) (kf : List String)
    (strict : Bool) (dropF sortBy fallback : List String) (reset : Bool)
    (hk1 : ∀ k ∈ kf, k ∉ dropF) (hk2 : ∀ k ∈ kf, k ≠ "")
    (hstab : ∀ r ∈ newRows, ∀ k ∈ kf, rget r k ≠ some Value.null)
    (hnodup : ∀ r ∈ newRows, (rkeys r).Nodup)
    (hexist : ((flexExisting file reset).map (flexKey kf)).Nodup) :
    (datasetKeys (writeCsvUpsertFlexible file newRows kf strict dropF sortBy reset
      fallback).file kf).Nodup := by
  have hmerge : ((flexCells file newRows kf reset).map (cellKey newRows kf)).Nodup ∧
      StabCells newRows kf (flexCells file newRows kf reset) :=
    flexMergeAux_inv newRows kf newRows 0 ((flexExisting file reset).map Cell.val)
      (buildIndexAux (flexKey kf) (flexExisting file reset) 0 [])
      (List.drop_zero newRows) hnodup hstab
      (flexInitInv newRows kf (flexExisting file reset) hexist)
      (flexExisting_stab file reset newRows kf)
  have hcell : ∀ c ∈ flexCells file newRows kf reset,
      flexKey kf (derefC (mutHeapAux (flexCells file newRows kf reset) dropF newRows 0)
        (dropCell dropF c)) = cellKey newRows kf c := by
    intro c hc
    cases c with
    | val r =>
      show flexKey kf (dropRow dropF r) = flexKey kf r
      exact flexKey_dropRow dropF r kf hk1
    | ref j =>
      show flexKey kf ((mutHeapAux (flexCells file newRows kf reset) dropF newRows 0).getD j [])
          = flexKey kf (newRows.getD j [])
      by_cases hj : j < newRows.length
      · rw [mutHeapAux_getD _ _ _ 0 j hj, Nat.zero_add,
          if_pos (List.elem_eq_true_of_mem hc)]
        exact flexKey_dropRow dropF _ kf hk1
      · rw [getD_of_le_length _ _ _ (by rw [length_mutHeapAux]; omega),
          getD_of_le_length newRows j [] (by omega)]
  have hstabcell : ∀ c ∈ flexCells file newRows kf reset, ∀ k ∈ kf,
      rget (derefC (mutHeapAux (flexCells file newRows kf reset) dropF newRows 0)
        (dropCell dropF c)) k ≠ some Value.null := by
    intro c hc k hk
    cases c with
    | val r =>
      show rget (dropRow dropF r) k ≠ some Value.null
      rw [rget_dropRow, if_neg (hk1 k hk)]
      exact hmerge.2 (.val r) hc k hk
    | ref j =>
      show rget ((mutHeapAux (flexCells file newRows kf reset) dropF newRows 0).getD j []) k
          ≠ some Value.null
      by_cases hj : j < newRows.length
      · rw [mutHeapAux_getD _ _ _ 0 j hj, Nat.zero_add,
          if_pos (List.elem_eq_true_of_mem hc), rget_dropRow, if_neg (hk1 k hk)]
        exact hmerge.2 (.ref j) hc k hk
      · rw [getD_of_le_length _ _ _ (by rw [length_mutHeapAux]; omega)]
        intro hcon
        cases hcon
  have hkeys0 : (((flexCells file newRows kf reset).map (dropCell dropF)).map
      (derefC (mutHeapAux (flexCells file newRows kf reset) dropF newRows 0))).map
        (flexKey kf)
      = (flexCells file newRows kf reset).map (cellKey newRows kf) := by
    rw [List.map_map, List.map_map]
    exact List.map_congr_left hcell
  have hperm : ((writeCsvUpsertFlexible file newRows kf strict dropF sortBy reset
      fallback).mergedRows).Perm
        (((flexCells file newRows kf reset).map (dropCell dropF)).map
          (derefC (mutHeapAux (flexCells file newRows kf reset) dropF newRows 0))) :=
    flexSortRows_perm sortBy _
  have hnodupMR : (((writeCsvUpsertFlexible file newRows kf strict dropF sortBy reset
      fallback).mergedRows).map (flexKey kf)).Nodup := by
    refine (List.Perm.nodup_iff (List.Perm.map (flexKey kf) hperm)).mpr ?_
    rw [hkeys0]
    exact hmerge.1
  have hstabMR : ∀ r ∈ (writeCsvUpsertFlexible file newRows kf strict dropF sortBy reset
      fallback).mergedRows, ∀ k ∈ kf, rget r k ≠ some Value.null := by
    intro r hr k hk
    have hr0 := hperm.mem_iff.mp hr
    rcases List.mem_map.mp hr0 with ⟨c2, hc2, rfl⟩
    rcases List.mem_map.mp hc2 with ⟨c, hc, rfl⟩
    exact hstabcell c hc k hk
  have hpt : ∀ r ∈ (writeCsvUpsertFlexible file newRows kf strict dropF sortBy reset
      fallback).mergedRows,
      rowKey kf ((stableHeaderFromRows (flexHeaderOld file reset fallback)
        (writeCsvUpsertFlexible file newRows kf strict dropF sortBy reset
          fallback).mergedRows strict).map (fun c => (c, Value.str (cellStr r c))))
        = flexKey kf r := by
    intro r hr
    refine fileKey_eq_flexKey _ r kf (hstabMR r hr) ?_
    intro k hk hmem
    rw [mem_stableHeader_iff]
    exact Or.inr ⟨hk2 k hk, r, hr, hmem⟩
  have hdk : datasetKeys (writeCsvUpsertFlexible file newRows kf strict dropF sortBy reset
      fallback).file kf
      = ((writeCsvUpsertFlexible file newRows kf strict dropF sortBy reset
        fallback).mergedRows).map (flexKey kf) :=
    datasetKeys_constructed _ _ kf hpt
  rw [hdk]
  exact hnodupMR

/-- The merge loop of upsert_csv preserves the index invariant, so the
final row keys are pairwise distinct — given every key field is a header
column. -/
theorem upsertMergeAux_inv (header kf : List String) (hh : ∀ k ∈ kf, k ∈ header) :
    ∀ (l : List Row) (existing : List Row) (idx : Index),
    RowsInv kf existing idx →
    ((upsertMergeAux header kf l existing idx).map (rowKey kf)).Nodup := by
  intro l
  induction l with
  | nil =>
    intro existing idx hinv
    exact hinv.1
  | cons r rest ih =>
    intro existing idx hinv
    cases hlook : ilookup idx (rowKey kf r) with
    | some pos =>
      have hstep : upsertMergeAux header kf (r :: rest) existing idx
          = upsertMergeAux header kf rest
            (existing.set pos (updateRow header (existing.getD pos []) r)) idx := by
        rw [upsertMergeAux, hlook]
      rw [hstep]
      obtain ⟨hpos, hkey⟩ := hinv.2.1 _ _ hlook
      have hknew : rowKey kf (updateRow header (existing.getD pos []) r)
          = rowKey kf (existing.getD pos []) :=
        rowKey_updateRow header _ r kf hkey
      have hgetD : ∀ q, (existing.set pos
            (updateRow header (existing.getD pos []) r)).getD q []
          = if q = pos then updateRow header (existing.getD pos []) r
            else existing.getD q [] := by
        intro q
        rcases eq_or_ne q pos with h | h
        · subst h
          rw [if_pos rfl, getD_set_eq _ _ _ _ hpos]
        · rw [if_neg h, getD_set_ne _ _ _ _ _ (Ne.symm h)]
      have hmapeq : (existing.set pos (updateRow header (existing.getD pos []) r)).map
          (rowKey kf) = existing.map (rowKey kf) := by
        rw [List.map_set, hknew, ← getD_map (rowKey kf) existing pos [],
          set_getD_self]
        rw [List.length_map]
        exact hpos
      refine ih _ idx ⟨by rw [hmapeq]; exact hinv.1, ?_, ?_⟩
      · intro k' pos' h'
        obtain ⟨hp', hk'⟩ := hinv.2.1 _ _ h'
        refine ⟨by rw [List.length_set]; exact hp', ?_⟩
        rw [hgetD]
        rcases eq_or_ne pos' pos with h | h
        · rw [if_pos h, hknew, ← h]
          exact hk'
        · rw [if_neg h]
          exact hk'
      · intro pos' h'
        rw [List.length_set] at h'
        rw [hgetD]
        rcases eq_or_ne pos' pos with h | h
        · rw [if_pos h, hknew]
          exact hinv.2.2 pos hpos
        · rw [if_neg h]
          exact hinv.2.2 pos' h'
    | none =>
      have hstep : upsertMergeAux header kf (r :: rest) existing idx
          = upsertMergeAux header kf rest (existing ++ [projRow header r])
            ((rowKey kf r, existing.length) :: idx) := by
        rw [upsertMergeAux, hlook]
      rw [hstep]
      have hprojKey : rowKey kf (projRow header r) = rowKey kf r :=
        rowKey_projRow header r kf hh
      have hfree : rowKey kf r ∉ existing.map (rowKey kf) := by
        intro hmem
        rcases List.mem_map.mp hmem with ⟨x, hx, hxk⟩
        rcases List.mem_iff_getElem.mp hx with ⟨q, hq, hqx⟩
        have := hinv.2.2 q hq
        rw [List.getD_eq_getElem existing [] hq, hqx, hxk, hlook] at this
        cases this
      refine ih _ _ ⟨?_, ?_, ?_⟩
      · rw [List.map_append]
        rw [List.nodup_append]
        refine ⟨hinv.1, List.nodup_singleton _, ?_⟩
        intro x hx hy
        simp only [List.map_cons, List.map_nil, List.mem_singleton] at hy
        rw [hy, hprojKey] at hx
        exact hfree hx
      · intro k' pos' h'
        rw [ilookup] at h'
        by_cases hk : rowKey kf r = k'
        · rw [if_pos hk] at h'
          cases h'
          refine ⟨by simp, ?_⟩
          rw [getD_append_len, hprojKey, hk]
        · rw [if_neg hk] at h'
          obtain ⟨hp', hk'⟩ := hinv.2.1 _ _ h'
          refine ⟨by simp [List.length_append]; omega, ?_⟩
          rw [getD_append_left _ _ _ _ hp']
          exact hk'
      · intro pos' h'
        rw [List.length_append, List.length_singleton] at h'
        rcases Nat.lt_succ_iff_lt_or_eq.mp h' with hlt | heq
        · rw [getD_append_left _ _ _ _ hlt, ilookup]
          by_cases hk : rowKey kf r = rowKey kf (existing.getD pos' [])
          · rw [if_pos hk]; rfl
          · rw [if_neg hk]
            exact hinv.2.2 pos' hlt
        · subst heq
          rw [getD_append_len, hprojKey, ilookup, if_pos rfl]
          rfl

/-- The rows and index upsert_csv starts from satisfy the invariant
whenever the prior rows' keys are distinct. -/
theorem rowsInitInv (kf : List String) (existing : List Row)
    (hexist : (existing.map (rowKey kf)).Nodup) :
    RowsInv kf existing (buildIndexAux (rowKey kf) existing 0 []) := by
  refine ⟨hexist, ?_, ?_⟩
  · intro k pos h
    rcases buildIndexAux_sound (rowKey kf) existing 0 [] k pos h with ⟨j, hj, hpe, hk⟩ | hbase
    · subst hpe
      rw [Nat.zero_add]
      exact ⟨hj, hk⟩
    · cases hbase
  · intro pos h
    exact buildIndexAux_complete (rowKey kf) existing 0 [] pos h

/-- The stringified key tuple of a written-and-reread row equals
upsert_csv's _row_key of the in-memory row, whenever every key field is a
header column. -/
theorem fileKey_eq_rowKey (header : List String) (r : Row) (kf : List String)
    (hh : ∀ k ∈ kf, k ∈ header) :
    rowKey kf (header.map (fun c => (c, Value.str (cellStr r c)))) = rowKey kf r := by
  refine List.map_congr_left ?_
  intro k hkm
  show cellStr (header.map (fun c => (c, Value.str (cellStr r c)))) k = cellStr r k
  rw [cellStr, rget_mapSelf, if_pos (hh k hkm)]
  show pyStr (Value.str (cellStr r k)) = cellStr r k
  rw [pyStr]

/-- The dataset keys of a written file are upsert_csv's in-memory row keys,
whenever every key field is a header column. -/
theorem datasetKeys_constructed_row (header : List String) (rows : List Row)
    (kf : List String) (hh : ∀ k ∈ kf, k ∈ header) :
    datasetKeys ⟨header, rows.map (writeRecord header)⟩ kf = rows.map (rowKey kf) := by
  show ((rows.map (writeRecord header)).map
      (fun rec => (header.zip rec).map (fun p => (p.1, Value.str p.2)))).map (rowKey kf)
    = rows.map (rowKey kf)
  rw [List.map_map, List.map_map]
  refine List.map_congr_left ?_
  intro r hr
  show rowKey kf ((header.zip (writeRecord header r)).map (fun p => (p.1, Value.str p.2)))
      = rowKey kf r
  rw [readRow_writeRecord]
  exact fileKey_eq_rowKey header r kf hh

/-- Uniqueness of the dataset keys written by upsert_csv: if the prior
file's rows have pairwise-distinct keys and every key field is a column of
the target header, the written dataset has at most one row per stringified
key tuple (an untouched file trivially keeps its property). -/
theorem c6_upsert_nodup (file : Option CsvFile) (rows : List Row) (kf schema : List String)
    (allowNew : Bool) (sortLe : Option (Row → Row → Bool))
    (hh : ∀ k ∈ kf, k ∈ upsertCsvHeader (upsertHdr0 file) rows schema allowNew)
    (hexist : ((upsertExisting file).map (rowKey kf)).Nodup) :
    (match upsertCsv file rows kf schema allowNew sortLe with
     | some F => (datasetKeys F kf).Nodup
     | Option.none => True) := by
  by_cases hearly : schema = [] ∧ upsertHdr0 file = [] ∧ rows = []
  · have hres : upsertCsv file rows kf schema allowNew sortLe = file := by
      rw [upsertCsv, if_pos hearly]
    rw [hres]
    cases file with
    | none => trivial
    | some F => exact hexist
  · have hres : upsertCsv file rows kf schema allowNew sortLe
        = some ⟨upsertCsvHeader (upsertHdr0 file) rows schema allowNew,
          (match sortLe with
           | some le => pySort le (upsertMergeAux
               (upsertCsvHeader (upsertHdr0 file) rows schema allowNew) kf rows
               (upsertExisting file)
               (buildIndexAux (rowKey kf) (upsertExisting file) 0 []))
           | Option.none => upsertMergeAux
               (upsertCsvHeader (upsertHdr0 file) rows schema allowNew) kf rows
               (upsertExisting file)
               (buildIndexAux (rowKey kf) (upsertExisting file) 0 [])).map
            (writeRecord (upsertCsvHeader (upsertHdr0 file) rows schema allowNew))⟩ := by
      rw [upsertCsv, if_neg hearly]
    rw [hres]
    show (datasetKeys _ kf).Nodup
    rw [datasetKeys_constructed_row _ _ kf hh]
    have hm := upsertMergeAux_inv (upsertCsvHeader (upsertHdr0 file) rows schema allowNew)
      kf hh rows (upsertExisting file)
      (buildIndexAux (rowKey kf) (upsertExisting file) 0 [])
      (rowsInitInv kf (upsertExisting file) hexist)
    cases sortLe with
    | none => exact hm
    | some le =>
      exact (List.Perm.nodup_iff (List.Perm.map _ (List.perm_insertionSort _ _))).mpr hm

/-- Claim C6 (amended): after a merge the tuple of stringified values at
the key fields is unique across the rows of the resulting dataset, for both
implementations, PROVIDED the prior file's rows already have
pairwise-distinct key tuples (a prior file with duplicate keys keeps them),
and — for write_csv_upsert_flexible — no key field is dropped via
drop_fields, key fields are non-empty column names, and incoming key-field
values are never None (a None key value stringifies to "None" in the index
but round-trips through the file as ""), and — for upsert_csv — every key
field is a column of the target header (a key field outside a frozen schema
is not written, collapsing distinct keys). -/
theorem c6_amended
    (fileF : Option CsvFile) (newRows : List Row) (kfF : List String) (strict : Bool)
    (dropF sortBy fallback : List String) (reset : Bool)
    (fileU : Option CsvFile) (rowsU : List Row) (kfU schema : List String)
    (allowNew : Bool) (sortLe : Option (Row → Row → Bool))
    (hk1 : ∀ k ∈ kfF, k ∉ dropF) (hk2 : ∀ k ∈ kfF, k ≠ "")
    (hstab : ∀ r ∈ newRows, ∀ k ∈ kfF, rget r k ≠ some Value.null)
    (hnodup : ∀ r ∈ newRows, (rkeys r).Nodup)
    (hexistF : ((flexExisting fileF reset).map (flexKey kfF)).Nodup)
    (hhU : ∀ k ∈ kfU, k ∈ upsertCsvHeader (upsertHdr0 fileU) rowsU schema allowNew)
    (hexistU : ((upsertExisting fileU).map (rowKey kfU)).Nodup) :
    (datasetKeys (writeCsvUpsertFlexible fileF newRows kfF strict dropF sortBy reset
      fallback).file kfF).Nodup ∧
    (match upsertCsv fileU rowsU kfU schema allowNew sortLe with
     | some F => (datasetKeys F kfU).Nodup
     | Option.none => True) :=
  ⟨c6_flex_nodup fileF newRows kfF strict dropF sortBy fallback reset hk1 hk2 hstab
      hnodup hexistF,
    c6_upsert_nodup fileU rowsU kfU schema allowNew sortLe hhU hexistU⟩

/-- Witness for c6_amended: a one-row prior file receives one fresh row in
each store, with id as the key field. -/
theorem c6_amended_witness :
    (datasetKeys (writeCsvUpsertFlexible (some ⟨["id", "a"], [["1", "x"]]⟩)
      [[("id", .str "2"), ("a", .str "y")]] ["id"] false ["ad_id"] [] false
      []).file ["id"]).Nodup ∧
    (match upsertCsv (some ⟨["id", "a"], [["1", "x"]]⟩)
        [[("id", .str "2"), ("a", .str "z")]] ["id"] [] false Option.none with
     | some F => (datasetKeys F ["id"]).Nodup
     | Option.none => True) :=
  c6_amended (some ⟨["id", "a"], [["1", "x"]]⟩) [[("id", .str "2"), ("a", .str "y")]]
    ["id"] false ["ad_id"] [] [] false
    (some ⟨["id", "a"], [["1", "x"]]⟩) [[("id", .str "2"), ("a", .str "z")]]
    ["id"] [] false Option.none
    (by decide) (by decide) (by decide) (by decide) (by decide) (by decide) (by decide)
